import Mathlib

/-!
Verification development for the QUIC-based admission-control and
stream-reassembly server of `streamer/src/nonblocking/quic.rs`.

The Rust code is shallowly embedded: machine integers (`u64`, `usize`,
`u16`) become `Nat`; `Bytes` chunks become `List Nat` (one `Nat` per
byte); Rust `Option`/`Result` become `Option`/`Except`; the `IndexMap`
backing the connection table becomes an association list together with
the swap-remove index semantics of `IndexMap`; `f64` arithmetic in the
two stake-interpolation functions is modelled as exact rational
arithmetic with the floating-point casts (`as usize`, `.round() as u64`)
made explicit.  Concurrency primitives (atomics, cancellation tokens,
locks) carry no data relevant to the claims and are omitted from the
embedded records.
-/

namespace Quic

/-- Connection close code for a table eviction, `quic.rs` line 73. -/
def CONNECTION_CLOSE_CODE_DROPPED_ENTRY : Nat := 1

/-- Connection close code for a disallowed connection, `quic.rs` line 76. -/
def CONNECTION_CLOSE_CODE_DISALLOWED : Nat := 2

/-- Connection close code when the stream bound does not fit a VarInt, line 79. -/
def CONNECTION_CLOSE_CODE_EXCEED_MAX_STREAM_COUNT : Nat := 3

/-- Connection close code for the per-key connection cap, `quic.rs` line 82. -/
def CONNECTION_CLOSE_CODE_TOO_MANY : Nat := 4

/-- Connection close code for an invalid stream, `quic.rs` line 85. -/
def CONNECTION_CLOSE_CODE_INVALID_STREAM : Nat := 5

/-- Close reason bytes `b"invalid_stream"`, `quic.rs` line 86. -/
def CONNECTION_CLOSE_REASON_INVALID_STREAM : String := "invalid_stream"

/-- Modelled from the spec: `solana_packet::PACKET_DATA_SIZE`, the
protocol-fixed maximum size of a single packet payload.  The constant
lives in the `solana-packet` crate of the repository, which is not part
of the provided sources; the spec describes it as the fixed maximum
single-packet size.  Its concrete value is 1232 bytes. -/
def PACKET_DATA_SIZE : Nat := 1232

/-- Peer classification, `quic.rs` lines 124-128 (`ConnectionPeerType`). -/
inductive ConnectionPeerType where
  | Unstaked : ConnectionPeerType
  | Staked : Nat → ConnectionPeerType
deriving DecidableEq, Repr

/-- `ConnectionPeerType::is_staked`, `quic.rs` lines 131-133. -/
def ConnectionPeerType.is_staked : ConnectionPeerType → Bool
  | .Unstaked => false
  | .Staked _ => true

/-- Packet metadata.  Of `solana_packet::Meta` only the `size` field is
read or written by the embedded code (`Meta::default()` starts it at 0);
the address and the staked-node flag are set once and never consulted by
the claims, so they are omitted. -/
structure Meta where
  size : Nat
deriving DecidableEq, Repr

/-- A byte chunk (`bytes::Bytes`): a list of byte values. -/
abbrev Chunk := List Nat

/-- Per-stream accumulator, `quic.rs` lines 107-112 (`PacketAccumulator`).
The `start_time : Instant` field is wall-clock observability state and is
not modelled. -/
structure PacketAccumulator where
  meta : Meta
  chunks : List Chunk
deriving DecidableEq, Repr

/-- `PacketAccumulator::new`, `quic.rs` lines 114-121. -/
def PacketAccumulator.new (meta : Meta) : PacketAccumulator :=
  { meta := meta, chunks := [] }

/-- A finished packet (`solana_perf::packet::BytesPacket`): payload bytes
plus metadata. -/
structure BytesPacket where
  bytes : List Nat
  meta : Meta
deriving DecidableEq, Repr

/-- Stream progress marker, `quic.rs` lines 1224-1229 (`StreamState`). -/
inductive StreamState where
  | Receiving : StreamState
  | Finished : StreamState
deriving DecidableEq, Repr

/-- Accumulation loop of `handle_chunks`, `quic.rs` lines 1243-1263: for
each chunk the accumulated size is bumped first, then checked against
`PACKET_DATA_SIZE`, and only then is the chunk pushed.  Returns the
mutated accumulator and `false` when the size check failed (the source
returns `Err(())` there, leaving `accum` with the incremented size and
without the offending chunk). -/
def accumulateChunks : List Chunk → PacketAccumulator → PacketAccumulator × Bool
  | [], a => (a, true)
  | c :: cs, a =>
    let a' : PacketAccumulator := { a with meta := { size := a.meta.size + c.length } }
    if PACKET_DATA_SIZE < a'.meta.size then (a', false)
    else accumulateChunks cs { a' with chunks := a'.chunks ++ [c] }

/-- Bounded non-blocking hand-off queue: `crossbeam_channel::bounded` with
`try_send`.  Returns the new queue and whether the send succeeded; a full
queue refuses the element.  (Receiver disconnection cannot occur while the
batcher task is alive, so it is not modelled here.) -/
def trySend (cap : Nat) (q : List PacketAccumulator) (x : PacketAccumulator) :
    List PacketAccumulator × Bool :=
  if q.length < cap then (q ++ [x], true) else (q, false)

/-- Result of one `handle_chunks` call: the stream state or error, the
accumulator, the hand-off queue after a possible send, and the number of
queue-full drops counted
(`total_handle_chunk_to_packet_batcher_send_full_err`). -/
structure HandleChunksResult where
  state : Except Unit StreamState
  accum : PacketAccumulator
  queue : List PacketAccumulator
  droppedFull : Nat
deriving Repr

/-- `handle_chunks`, `quic.rs` lines 1235-1327.  A non-empty batch of
chunks is accumulated (oversize is an error); an empty batch marks the end
of the stream: with no accumulated chunks this is an error (`quic.rs`
lines 1270-1276), otherwise the accumulator is sent non-blockingly into
the hand-off queue, and a full queue merely drops the packet and counts
(the stream still finishes, `quic.rs` lines 1282-1326). -/
def handle_chunks (chunks : List Chunk) (accum : PacketAccumulator)
    (cap : Nat) (queue : List PacketAccumulator) : HandleChunksResult :=
  match accumulateChunks chunks accum with
  | (a, false) => { state := .error (), accum := a, queue := queue, droppedFull := 0 }
  | (a, true) =>
    if chunks.length ≠ 0 then
      { state := .ok .Receiving, accum := a, queue := queue, droppedFull := 0 }
    else if a.chunks.isEmpty then
      { state := .error (), accum := a, queue := queue, droppedFull := 0 }
    else
      match trySend cap queue a with
      | (q', true) => { state := .ok .Finished, accum := a, queue := q', droppedFull := 0 }
      | (q', false) => { state := .ok .Finished, accum := a, queue := q', droppedFull := 1 }

/-- Reaction of the per-connection loop to a `handle_chunks` result,
`quic.rs` lines 1181-1199. -/
inductive ConnectionAction where
  | finishStream : ConnectionAction
  | keepReceiving : ConnectionAction
  | closeConnection : Nat → String → ConnectionAction
deriving DecidableEq, Repr

/-- Dispatch on the `handle_chunks` result inside `handle_connection`,
`quic.rs` lines 1181-1199: `Ok(Finished)` ends just the stream,
`Ok(Receiving)` keeps reading, and any `Err` closes the whole connection
with the invalid-stream code and breaks the connection loop. -/
def handleChunksResultAction : Except Unit StreamState → ConnectionAction
  | .ok .Finished => .finishStream
  | .ok .Receiving => .keepReceiving
  | .error _ =>
      .closeConnection CONNECTION_CLOSE_CODE_INVALID_STREAM
        CONNECTION_CLOSE_REASON_INVALID_STREAM

/-- Run one stream from a given accumulator state: each chunk arrives in
its own `read_chunks` batch, and the terminating zero-length read follows
(`quic.rs` lines 1140-1200).  Receiving continues only on
`Ok(StreamState::Receiving)`. -/
def runStreamFrom : List Chunk → PacketAccumulator → Nat → List PacketAccumulator →
    HandleChunksResult
  | [], a, cap, q => handle_chunks [] a cap q
  | c :: cs, a, cap, q =>
    let r := handle_chunks [c] a cap q
    match r.state with
    | .ok .Receiving => runStreamFrom cs r.accum cap r.queue
    | _ => r

/-- Run one whole stream on a fresh accumulator (`quic.rs` lines
1125-1138: a fresh `PacketAccumulator` with a default `Meta` of size 0 is
created per stream). -/
def runStream (cs : List Chunk) (cap : Nat) (q : List PacketAccumulator) :
    HandleChunksResult :=
  runStreamFrom cs (PacketAccumulator.new { size := 0 }) cap q

/-- Conversion of an accumulator into a packet inside the batcher,
`quic.rs` lines 984-997: a single chunk is moved into the packet as-is,
several chunks are copied into one contiguous buffer in order. -/
def accumToPacket (a : PacketAccumulator) : BytesPacket :=
  match a.chunks with
  | [c] => { bytes := c, meta := a.meta }
  | cs => { bytes := cs.flatten, meta := a.meta }

/-- Outcome of the batch-send decision of `packet_batch_sender`. -/
inductive TrySendBatchResult where
  | ok : TrySendBatchResult
  | full : TrySendBatchResult
  | disconnected : TrySendBatchResult
deriving DecidableEq, Repr

/-- Observable outcome of one flush attempt of the packet batcher. -/
structure BatchFlushOutcome where
  delivered : Option (List BytesPacket)
  sendErrIncrement : Nat
  exitRequested : Bool
  nextBatch : List BytesPacket
deriving DecidableEq, Repr

/-- Grouping key of the connection table, `quic.rs` lines 1386-1397
(`ConnectionTableKey`).  `IpAddr` and `Pubkey` are opaque identifiers
compared only for equality, so both are modelled as `Nat`. -/
inductive ConnectionTableKey where
  | IP : Nat → ConnectionTableKey
  | Pubkey : Nat → ConnectionTableKey
deriving DecidableEq, Repr

/-- One live connection record, `quic.rs` lines 1329-1339
(`ConnectionEntry`).  The cancellation token, the connection tracker and
the shared stream counter carry no data used by the claims; the
`last_update` atomic becomes a plain `Nat`, and the optional transport
connection is represented by its `stable_id`. -/
structure ConnectionEntry where
  peer_type : ConnectionPeerType
  last_update : Nat
  port : Nat
  connStableId : Option Nat
deriving DecidableEq, Repr

/-- `ConnectionEntry::stake`, `quic.rs` lines 1366-1371. -/
def ConnectionEntry.stake (e : ConnectionEntry) : Nat :=
  match e.peer_type with
  | .Unstaked => 0
  | .Staked stake => stake

/-- One key of the table together with its ordered connection list. -/
abbrev ConnectionGroup := ConnectionTableKey × List ConnectionEntry

/-- The connection table, `quic.rs` lines 1400-1404: an `IndexMap` from
key to connection list plus the running `total_size`.  The `IndexMap` is
modelled as an insertion-ordered association list; its swap-remove
operations are modelled below. -/
structure ConnectionTable where
  table : List ConnectionGroup
  total_size : Nat
deriving Repr

/-- `ConnectionTable::new`, `quic.rs` lines 1409-1414. -/
def ConnectionTable.new : ConnectionTable :=
  { table := [], total_size := 0 }

/-- Order on `Option Nat` used by the Rust `Ord` instance of
`Option<u64>`: `None` is smaller than every `Some`. -/
def optLE : Option Nat → Option Nat → Bool
  | none, _ => true
  | some _, none => false
  | some a, some b => a ≤ b

/-- Strict variant of `optLE`, the Rust `<` on `Option<u64>`. -/
def optLT : Option Nat → Option Nat → Bool
  | none, none => false
  | none, some _ => true
  | some _, none => false
  | some a, some b => a < b

/-- Index and key value of the first minimum of `f` over a list, the
semantics of Rust `Iterator::min_by_key` (ties are won by the earliest
element). -/
def minIdxBy (f : α → Option Nat) : List α → Option (Nat × Option Nat)
  | [] => none
  | x :: xs =>
    match minIdxBy f xs with
    | none => some (0, f x)
    | some (j, m) => if optLE (f x) m then some (0, f x) else some (j + 1, m)

/-- First minimum by second component over `(index, stake)` pairs, the
`min_by_key` call of `prune_random`. -/
def minPairBy : List (Nat × Option Nat) → Option (Nat × Option Nat)
  | [] => none
  | p :: ps =>
    match minPairBy ps with
    | none => some p
    | some q => if optLE p.2 q.2 then some p else some q

/-- `IndexMap::swap_remove_index`: the entry at a valid index is removed
by swapping the last entry into its place; an out-of-range index leaves
the map unchanged. -/
def swapRemoveIdx (l : List α) (i : Nat) : List α :=
  if i < l.length then
    match l.getLast? with
    | some last => (l.set i last).dropLast
    | none => l
  else l

/-- Position of a key in the table, the lookup underlying
`IndexMap::entry`. -/
def findKeyIdx (k : ConnectionTableKey) : List ConnectionGroup → Option Nat
  | [] => none
  | g :: gs => if g.1 = k then some 0 else (findKeyIdx k gs).map (· + 1)

/-- Minimum `last_update` of a connection list, the `min_by_key` key
function of `prune_oldest` (`connections.iter().map(last_update).min()`,
which is `None` on an empty list). -/
def groupMin (g : ConnectionGroup) : Option Nat :=
  (g.2.map ConnectionEntry.last_update).min?

/-- First entry stake of a group, the sampling key of `prune_random`
(`self.table[index].first().map(stake)`). -/
def groupFirstStake (g : ConnectionGroup) : Option Nat :=
  g.2.head?.map ConnectionEntry.stake

/-- Sum of the per-key list lengths of a table. -/
def sumLen (l : List ConnectionGroup) : Nat :=
  (l.map fun g => g.2.length).sum

/-- `ConnectionTable::try_add_connection`, `quic.rs` lines 1460-1507.
`entry(key).or_default()` inserts an empty list at the end of the
`IndexMap` when the key is absent; the per-key cap check
`len + 1 <= max_connections_per_peer` then either pushes the new entry
and bumps `total_size`, or refuses (leaving the possibly just-inserted
empty list in place).  The returned triple of shared handles is modelled
by the success flag. -/
def try_add_connection (t : ConnectionTable) (key : ConnectionTableKey) (port : Nat)
    (connStableId : Option Nat) (peer_type : ConnectionPeerType) (last_update : Nat)
    (max_connections_per_peer : Nat) : ConnectionTable × Bool :=
  let e : ConnectionEntry :=
    { peer_type := peer_type, last_update := last_update, port := port,
      connStableId := connStableId }
  match findKeyIdx key t.table with
  | none =>
    if 0 + 1 ≤ max_connections_per_peer then
      ({ table := t.table ++ [(key, [e])], total_size := t.total_size + 1 }, true)
    else
      ({ table := t.table ++ [(key, [])], total_size := t.total_size }, false)
  | some i =>
    let conns := ((t.table.get? i).map Prod.snd).getD []
    if conns.length + 1 ≤ max_connections_per_peer then
      ({ table := t.table.set i (key, conns ++ [e]), total_size := t.total_size + 1 },
        true)
    else (t, false)

/-- Retention predicate of `ConnectionTable::remove_connection`,
`quic.rs` lines 1515-1527: keep an entry when its port differs, or when
it holds a transport connection whose stable id differs. -/
def retainEntry (e : ConnectionEntry) (port stable_id : Nat) : Bool :=
  e.port ≠ port ||
    match e.connStableId with
    | some c => c ≠ stable_id
    | none => false

/-- `ConnectionTable::remove_connection`, `quic.rs` lines 1510-1538:
under the given key, drop every entry matching port and stable id, remove
the key if its list became empty (`swap_remove_entry`), subtract the
removed count from `total_size` and return it. -/
def remove_connection (t : ConnectionTable) (key : ConnectionTableKey)
    (port stable_id : Nat) : ConnectionTable × Nat :=
  match findKeyIdx key t.table with
  | none => (t, 0)
  | some i =>
    let conns := ((t.table.get? i).map Prod.snd).getD []
    let kept := conns.filter fun e => retainEntry e port stable_id
    let removed := conns.length - kept.length
    let tbl :=
      if kept.isEmpty then swapRemoveIdx t.table i else t.table.set i (key, kept)
    ({ table := tbl, total_size := t.total_size - removed }, removed)

/-- Loop body of `ConnectionTable::prune_oldest`, `quic.rs` lines
1416-1432: while more than `max_size` entries remain, the key group with
the smallest minimum `last_update` is swap-removed whole.  Each
iteration removes one key, so the key count is used as structural
fuel - with fuel equal to the table length the fuel never runs out
before the loop's own exit conditions. -/
def pruneOldestGo (maxSize : Nat) :
    Nat → List ConnectionGroup → Nat → Nat → List ConnectionGroup × Nat
  | 0, table, _total, pruned => (table, pruned)
  | fuel + 1, table, total, pruned =>
    if maxSize < total - pruned then
      match minIdxBy groupMin table with
      | none => (table, pruned)
      | some (i, _) =>
        let glen := ((table.get? i).map fun g => g.2.length).getD 0
        pruneOldestGo maxSize fuel (swapRemoveIdx table i) total (pruned + glen)
    else (table, pruned)

/-- `ConnectionTable::prune_oldest`, `quic.rs` lines 1416-1432.  Returns
the pruned table and the number of pruned connections. -/
def prune_oldest (t : ConnectionTable) (max_size : Nat) : ConnectionTable × Nat :=
  let r := pruneOldestGo max_size t.table.length t.table t.total_size 0
  ({ table := r.1, total_size := t.total_size - r.2 }, r.2)

/-- `ConnectionTable::prune_random`, `quic.rs` lines 1438-1458: sample
`sample_size` random indices (the thread rng is modelled by the function
`rng`, sample `i` being `rng i` reduced into range), key each sample by
the stake of the first entry of the group, take the first minimum, evict
the whole group only when that stake is strictly below the threshold
(`Option` order: a `None` stake is below every threshold).  Returns the
table and the number of pruned connections. -/
def prune_random (t : ConnectionTable) (rng : Nat → Nat)
    (sample_size threshold_stake : Nat) : ConnectionTable × Nat :=
  if t.table.length = 0 then (t, 0)
  else
    match minPairBy ((List.range sample_size).map fun i =>
      (rng i % t.table.length,
        groupFirstStake ((t.table.get? (rng i % t.table.length)).getD
          (ConnectionTableKey.IP 0, [])))) with
    | none => (t, 0)
    | some (idx, stk) =>
      if optLT stk (some threshold_stake) then
        let glen := ((t.table.get? idx).map fun g => g.2.length).getD 0
        ({ table := swapRemoveIdx t.table idx, total_size := t.total_size - glen },
          glen)
      else (t, 0)

/-- Modelled from the spec: integer percentage application of the
external `percentage` crate (`Percentage::from(p).apply_to(x)`), used by
the spec as "prune down to 90% of capacity". -/
def percentageApplyTo (p x : Nat) : Nat := x * p / 100

/-- `prune_unstaked_connection_table`, `quic.rs` lines 420-433: when the
table has reached `max_unstaked_connections`, prune the oldest entries
down to 90% of that capacity.  Returns the table and the eviction count
recorded into the stats. -/
def prune_unstaked_connection_table (t : ConnectionTable)
    (max_unstaked_connections : Nat) : ConnectionTable × Nat :=
  if max_unstaked_connections ≤ t.total_size then
    prune_oldest t (percentageApplyTo 90 max_unstaked_connections)
  else (t, 0)

/-- Unstaked admission step,
`prune_unstaked_connections_and_add_new_connection` (`quic.rs` lines
607-637) followed by the `try_add_connection` call of
`handle_and_cache_new_connection` (lines 557-567): with positive
capacity, first prune, then try to insert. -/
def pruneAndAddUnstaked (t : ConnectionTable) (max_connections : Nat)
    (key : ConnectionTableKey) (port : Nat) (connStableId : Option Nat)
    (last_update max_connections_per_peer : Nat) : ConnectionTable × Bool :=
  if 0 < max_connections then
    let t1 := (prune_unstaked_connection_table t max_connections).1
    try_add_connection t1 key port connStableId .Unstaked last_update
      max_connections_per_peer
  else (t, false)

/-- One connection-table operation, for the all-sequences invariant. -/
inductive TableOp where
  | add : ConnectionTableKey → Nat → Option Nat → ConnectionPeerType → Nat → Nat →
      TableOp
  | remove : ConnectionTableKey → Nat → Nat → TableOp
  | pruneOldest : Nat → TableOp
  | pruneRandom : (Nat → Nat) → Nat → Nat → TableOp

/-- Apply one operation to a table. -/
def applyOp (t : ConnectionTable) : TableOp → ConnectionTable
  | .add key port conn pt ts maxPer => (try_add_connection t key port conn pt ts maxPer).1
  | .remove key port sid => (remove_connection t key port sid).1
  | .pruneOldest maxSize => (prune_oldest t maxSize).1
  | .pruneRandom rng k thr => (prune_random t rng k thr).1

/-- Run a sequence of operations from the empty table. -/
def runOps (ops : List TableOp) : ConnectionTable :=
  ops.foldl applyOp ConnectionTable.new

/-- The connection list stored under a key in a group list (empty when
the key is absent). -/
def lookupEntries (k : ConnectionTableKey) : List ConnectionGroup → List ConnectionEntry
  | [] => []
  | g :: gs => if g.1 = k then g.2 else lookupEntries k gs

/-- The connection list stored under a key (empty when absent). -/
def entriesUnder (t : ConnectionTable) (k : ConnectionTableKey) : List ConnectionEntry :=
  lookupEntries k t.table

/-- Whether a key is present in the table. -/
def keyPresent (t : ConnectionTable) (k : ConnectionTableKey) : Bool :=
  (findKeyIdx k t.table).isSome

/-- The running total equals the sum of the per-key list lengths. -/
def sizeEq (t : ConnectionTable) : Prop :=
  t.total_size = sumLen t.table

/-- Every present key has a non-empty connection list. -/
def keyInv (t : ConnectionTable) : Prop :=
  ∀ g ∈ t.table, g.2 ≠ []

instance (t : ConnectionTable) : Decidable (sizeEq t) := by
  unfold sizeEq
  infer_instance

instance (t : ConnectionTable) : Decidable (keyInv t) := by
  unfold keyInv
  infer_instance

/-- An `add` operation with a positive per-peer cap (any other op is
unconstrained). -/
def addCapPos : TableOp → Prop
  | .add _ _ _ _ _ maxPer => 1 ≤ maxPer
  | _ => True

instance : DecidablePred addCapPos := by
  intro op
  cases op <;> simp [addCapPos] <;> infer_instance

/-- Largest `u64` (and `usize`, the targets are 64-bit) value, the
saturation bound of Rust float-to-integer casts. -/
def U64_MAX : Nat := 2 ^ 64 - 1

/-- Rust `f64 as usize` / `f64 as u64` on a finite value: truncate toward
zero and saturate at the type bounds.  The `f64` value is modelled as an
exact rational. -/
def rustCastToNat (q : ℚ) : Nat := min (Int.toNat ⌊q⌋) U64_MAX

/-- Rust `f64::round`: round half away from zero. -/
def rustRound (q : ℚ) : ℤ :=
  if 0 ≤ q then ⌊q + 1 / 2⌋ else -⌊-q + 1 / 2⌋

/-- Rust `Ord::clamp` on unsigned integers (callers guarantee
`lo <= hi`; the panic of the inverted case is not modelled). -/
def rustClamp (x lo hi : Nat) : Nat :=
  if x < lo then lo else if hi < x then hi else x

/-- `compute_max_allowed_uni_streams`, `quic.rs` lines 462-487.  The
constants `QUIC_MIN_STAKED_CONCURRENT_STREAMS`,
`QUIC_TOTAL_STAKED_CONCURRENT_STREAMS`,
`QUIC_MAX_STAKED_CONCURRENT_STREAMS` and
`QUIC_MAX_UNSTAKED_CONCURRENT_STREAMS` live in the
`solana-quic-definitions` crate of the repository, outside the provided
sources; modelled from the spec as parameters `minStaked`, `totalStaked`,
`maxStaked`, `maxUnstaked` (a staked minimum, total and maximum with
minimum at most maximum, and a fixed unstaked constant).  The `f64`
interpolation `(peer_stake / total_stake) * delta` is modelled as exact
rational arithmetic; `delta` uses the `usize` subtraction of the source
(callers guarantee the staked minimum is at most the total). -/
def compute_max_allowed_uni_streams (minStaked maxStaked totalStaked maxUnstaked : Nat)
    (peer_type : ConnectionPeerType) (total_stake : Nat) : Nat :=
  match peer_type with
  | .Staked peer_stake =>
    if total_stake = 0 ∨ total_stake < peer_stake then minStaked
    else
      let delta : ℚ := ((totalStaked - minStaked : Nat) : ℚ)
      rustClamp
        (rustCastToNat (((peer_stake : ℚ) / (total_stake : ℚ)) * delta) + minStaked)
        minStaked maxStaked
  | .Unstaked => maxUnstaked

/-- `compute_receive_window_ratio_for_staked_node`, `quic.rs` lines
640-663.  The constants `QUIC_MIN_STAKED_RECEIVE_WINDOW_RATIO` and
`QUIC_MAX_STAKED_RECEIVE_WINDOW_RATIO` live in the
`solana-quic-definitions` crate, outside the provided sources; modelled
from the spec as parameters `min_ratio <= max_ratio`.  The linear map
`r(s) = a*s + b` over `f64` is modelled as exact rational arithmetic,
with `.round() as u64` made explicit (`u64` subtractions before the
float casts use the saturating `Nat` subtraction; callers guarantee the
operands are ordered). -/
def compute_receive_window_ratio_for_staked_node
    (min_ratio max_ratio max_stake min_stake stake : Nat) : Nat :=
  if max_stake < stake then max_ratio
  else if min_stake < max_stake then
    let a : ℚ := ((max_ratio - min_ratio : Nat) : ℚ) / ((max_stake - min_stake : Nat) : ℚ)
    let b : ℚ := (max_ratio : ℚ) - (max_stake : ℚ) * a
    let ratio : ℚ := a * (stake : ℚ) + b
    rustCastToNat ((rustRound ratio : ℤ) : ℚ)
  else max_ratio

/-- Flush step of `packet_batch_sender`, `quic.rs` lines 916-954: once the
batch is due, `try_send` moves the whole batch out.  On any send error the
error counter is bumped; only `TrySendError::Disconnected` sets the exit
flag and returns.  In every non-exit case control breaks to the outer
loop, which allocates a new empty batch - on `Full` the unsent batch held
inside the error value is dropped. -/
def flushPacketBatch (packetBatch : List BytesPacket) (res : TrySendBatchResult) :
    BatchFlushOutcome :=
  match res with
  | .ok =>
    { delivered := some packetBatch, sendErrIncrement := 0,
      exitRequested := false, nextBatch := [] }
  | .full =>
    { delivered := none, sendErrIncrement := 1,
      exitRequested := false, nextBatch := [] }
  | .disconnected =>
    { delivered := none, sendErrIncrement := 1,
      exitRequested := true, nextBatch := [] }

/-! ### Concrete instances used by witnesses and counterexamples -/

/-- A mixed operation sequence on the connection table. -/
def sampleOps : List TableOp :=
  [.add (.IP 1) 10 (some 5) (.Staked 7) 3 2,
   .add (.IP 1) 11 (some 6) (.Staked 7) 4 2,
   .add (.Pubkey 2) 12 (some 8) .Unstaked 5 2,
   .remove (.IP 1) 10 5,
   .pruneRandom (fun _ => 0) 2 100,
   .pruneOldest 1]

/-- A single failed insertion with a per-peer cap of zero. -/
def emptyKeyOps : List TableOp :=
  [.add (.IP 0) 0 none .Unstaked 0 0]

/-- Example table for pruning: the key `IP 1` holds entries last active at
1 and 100, the key `IP 2` holds one entry last active at 50. -/
def tOldest : ConnectionTable :=
  { table :=
      [(.IP 1,
        [{ peer_type := .Unstaked, last_update := 1, port := 0, connStableId := none },
         { peer_type := .Unstaked, last_update := 100, port := 0, connStableId := none }]),
       (.IP 2,
        [{ peer_type := .Unstaked, last_update := 50, port := 0, connStableId := none }])],
    total_size := 3 }

/-- Example staked table: one key whose first entry has stake 1 and whose
second entry has stake 10. -/
def tRandomSample : ConnectionTable :=
  { table :=
      [(.Pubkey 7,
        [{ peer_type := .Staked 1, last_update := 0, port := 0, connStableId := none },
         { peer_type := .Staked 10, last_update := 0, port := 0, connStableId := none }])],
    total_size := 2 }

/-- Example table for removal: one pubkey key with three entries (two on
port 80 with different stable ids, one on port 81), one unrelated key. -/
def tRemove : ConnectionTable :=
  { table :=
      [(.Pubkey 3,
        [{ peer_type := .Unstaked, last_update := 1, port := 80, connStableId := some 11 },
         { peer_type := .Unstaked, last_update := 2, port := 80, connStableId := some 22 },
         { peer_type := .Unstaked, last_update := 3, port := 81, connStableId := some 11 }]),
       (.IP 9,
        [{ peer_type := .Unstaked, last_update := 4, port := 80, connStableId := some 11 }])],
    total_size := 4 }

/-- One unstaked admission of the example scenario: distinct peer `IP i`,
insertion timestamp `i`, unstaked ceiling 100, per-peer cap 8. -/
def unstakedAdmission (t : ConnectionTable) (i : Nat) : ConnectionTable :=
  (pruneAndAddUnstaked t 100 (.IP i) 0 (some i) i 8).1

/-- The example scenario table after 100 admissions. -/
def scenario100 : ConnectionTable :=
  (List.range 100).foldl unstakedAdmission ConnectionTable.new

/-- The example scenario table after 101 admissions. -/
def scenario101 : ConnectionTable :=
  (List.range 101).foldl unstakedAdmission ConnectionTable.new

/-! ### Helper lemmas about the list-level primitives -/

theorem optLE_refl (a : Option Nat) : optLE a a = true := by
  cases a <;> simp [optLE]

theorem optLE_trans {a b c : Option Nat} (h1 : optLE a b = true) (h2 : optLE b c = true) :
    optLE a c = true := by
  cases a <;> cases b <;> cases c <;> simp_all [optLE] ; omega

theorem optLE_total (a b : Option Nat) : optLE a b = true ∨ optLE b a = true := by
  cases a <;> cases b <;> simp [optLE] ; omega

theorem minIdxBy_eq_none {f : α → Option Nat} {l : List α} :
    minIdxBy f l = none ↔ l = [] := by
  cases l with
  | nil => simp [minIdxBy]
  | cons x xs =>
    simp only [minIdxBy]
    cases h : minIdxBy f xs with
    | none => simp
    | some p =>
      obtain ⟨j, m⟩ := p
      by_cases hle : optLE (f x) m = true <;> simp [hle]

theorem minIdxBy_spec {f : α → Option Nat} :
    ∀ {l : List α} {i : Nat} {m : Option Nat}, minIdxBy f l = some (i, m) →
      ∃ h : i < l.length, f (l.get ⟨i, h⟩) = m ∧ ∀ x ∈ l, optLE m (f x) = true := by
  intro l
  induction l with
  | nil => intro i m h; simp [minIdxBy] at h
  | cons x xs ih =>
    intro i m hsome
    simp only [minIdxBy] at hsome
    cases hxs : minIdxBy f xs with
    | none =>
      simp only [hxs, Option.some.injEq, Prod.mk.injEq] at hsome
      obtain ⟨rfl, rfl⟩ := hsome
      refine ⟨by simp, by simp, ?_⟩
      intro y hy
      rcases List.mem_cons.mp hy with rfl | hy'
      · exact optLE_refl _
      · rw [minIdxBy_eq_none] at hxs
        subst hxs
        simp at hy'
    | some p =>
      obtain ⟨j, m'⟩ := p
      simp only [hxs] at hsome
      obtain ⟨hj, hfj, hall⟩ := ih hxs
      by_cases hle : optLE (f x) m' = true
      · rw [if_pos hle] at hsome
        simp only [Option.some.injEq, Prod.mk.injEq] at hsome
        obtain ⟨rfl, rfl⟩ := hsome
        refine ⟨by simp, by simp, ?_⟩
        intro y hy
        rcases List.mem_cons.mp hy with rfl | hy'
        · exact optLE_refl _
        · exact optLE_trans hle (hall y hy')
      · rw [if_neg hle] at hsome
        simp only [Option.some.injEq, Prod.mk.injEq] at hsome
        obtain ⟨rfl, rfl⟩ := hsome
        refine ⟨by simpa using Nat.succ_lt_succ hj, by simpa using hfj, ?_⟩
        intro y hy
        rcases List.mem_cons.mp hy with rfl | hy'
        · rcases optLE_total (f y) m' with hc | hc
          · exact absurd hc hle
          · exact hc
        · exact hall y hy'

theorem minPairBy_mem :
    ∀ {ps : List (Nat × Option Nat)} {p : Nat × Option Nat},
      minPairBy ps = some p → p ∈ ps := by
  intro ps
  induction ps with
  | nil => intro p h; simp [minPairBy] at h
  | cons q qs ih =>
    intro p hsome
    simp only [minPairBy] at hsome
    cases hqs : minPairBy qs with
    | none =>
      simp only [hqs, Option.some.injEq] at hsome
      simp [← hsome]
    | some r =>
      simp only [hqs] at hsome
      by_cases hle : optLE q.2 r.2 = true
      · rw [if_pos hle] at hsome
        simp only [Option.some.injEq] at hsome
        simp [← hsome]
      · rw [if_neg hle] at hsome
        simp only [Option.some.injEq] at hsome
        subst hsome
        exact List.mem_cons_of_mem _ (ih hqs)

theorem findKeyIdx_spec {k : ConnectionTableKey} :
    ∀ {l : List ConnectionGroup} {i : Nat}, findKeyIdx k l = some i →
      ∃ h : i < l.length, (l.get ⟨i, h⟩).1 = k := by
  intro l
  induction l with
  | nil => intro i h; simp [findKeyIdx] at h
  | cons g gs ih =>
    intro i hsome
    simp only [findKeyIdx] at hsome
    by_cases hk : g.1 = k
    · rw [if_pos hk] at hsome
      obtain rfl : i = 0 := by simpa using hsome.symm
      exact ⟨by simp, by simpa using hk⟩
    · rw [if_neg hk] at hsome
      cases hgs : findKeyIdx k gs with
      | none => rw [hgs] at hsome; simp at hsome
      | some j =>
        rw [hgs] at hsome
        obtain rfl : i = j + 1 := by simpa using hsome.symm
        obtain ⟨hj, hjk⟩ := ih hgs
        exact ⟨by simpa using Nat.succ_lt_succ hj, by simpa using hjk⟩

theorem findKeyIdx_eq_none {k : ConnectionTableKey} :
    ∀ {l : List ConnectionGroup}, findKeyIdx k l = none ↔ ∀ g ∈ l, g.1 ≠ k := by
  intro l
  induction l with
  | nil => simp [findKeyIdx]
  | cons g gs ih =>
    simp only [findKeyIdx]
    by_cases hk : g.1 = k
    · simp [hk]
    · rw [if_neg hk, Option.map_eq_none']
      constructor
      · intro hnone g' hg'
        rcases List.mem_cons.mp hg' with rfl | hg''
        · exact hk
        · exact ih.mp hnone g' hg''
      · intro hall
        exact ih.mpr fun g' hg' => hall g' (List.mem_cons_of_mem _ hg')

theorem swapRemoveIdx_perm (l : List α) (i : Nat) (h : i < l.length) :
    (swapRemoveIdx l i).Perm (l.eraseIdx i) := by
  have hne : l ≠ [] := List.ne_nil_of_length_pos (Nat.lt_of_le_of_lt (Nat.zero_le _) h)
  unfold swapRemoveIdx
  rw [if_pos h, List.getLast?_eq_getLast_of_ne_nil hne]
  show ((l.set i (l.getLast hne)).dropLast).Perm (l.eraseIdx i)
  rw [List.set_eq_take_cons_drop _ h, List.eraseIdx_eq_take_drop_succ]
  by_cases hcase : l.length ≤ i + 1
  · have hd : l.drop (i + 1) = [] := List.drop_eq_nil_iff.mpr hcase
    rw [hd]
    have : List.take i l ++ l.getLast hne :: ([] : List α)
        = List.take i l ++ [l.getLast hne] := by simp
    rw [this, List.dropLast_concat]
    simp
  · push_neg at hcase
    have hd : l.drop (i + 1) ≠ [] := by
      intro hnil
      rw [List.drop_eq_nil_iff] at hnil
      omega
    have hsplit : List.take i l ++ l.getLast hne :: l.drop (i + 1)
        = (List.take i l ++ [l.getLast hne]) ++ l.drop (i + 1) := by simp
    rw [hsplit, List.dropLast_append_of_ne_nil _ hd]
    have hgl : (l.drop (i + 1)).getLast hd = l.getLast hne := List.getLast_drop hd
    have hdecomp : (l.drop (i + 1)).dropLast ++ [l.getLast hne] = l.drop (i + 1) := by
      rw [← hgl]
      exact List.dropLast_append_getLast hd
    conv_rhs => rw [← hdecomp]
    rw [List.append_assoc]
    exact (List.perm_append_singleton _ _).symm.append_left _

theorem length_swapRemoveIdx {l : List α} {i : Nat} (h : i < l.length) :
    (swapRemoveIdx l i).length = l.length - 1 := by
  rw [(swapRemoveIdx_perm l i h).length_eq, List.eraseIdx_eq_take_drop_succ]
  simp only [List.length_append, List.length_take, List.length_drop]
  omega

theorem mem_of_mem_swapRemoveIdx {l : List α} {i : Nat} {x : α}
    (hx : x ∈ swapRemoveIdx l i) : x ∈ l := by
  by_cases h : i < l.length
  · have hx' := (swapRemoveIdx_perm l i h).mem_iff.mp hx
    rw [List.eraseIdx_eq_take_drop_succ] at hx'
    rcases List.mem_append.mp hx' with h1 | h2
    · exact List.mem_of_mem_take h1
    · exact List.mem_of_mem_drop h2
  · unfold swapRemoveIdx at hx
    rw [if_neg h] at hx
    exact hx

theorem drop_decomp {l : List α} {i : Nat} (h : i < l.length) :
    l = l.take i ++ l.get ⟨i, h⟩ :: l.drop (i + 1) := by
  conv_lhs => rw [← List.take_append_drop i l]
  congr 1
  exact List.drop_eq_getElem_cons h

theorem eq_get_of_not_mem_swapRemoveIdx {l : List α} {i : Nat} (h : i < l.length) {x : α}
    (hx : x ∈ l) (hnx : x ∉ swapRemoveIdx l i) : x = l.get ⟨i, h⟩ := by
  have hx' : x ∉ l.eraseIdx i := fun hc => hnx ((swapRemoveIdx_perm l i h).mem_iff.mpr hc)
  rw [List.eraseIdx_eq_take_drop_succ] at hx'
  have hdecomp := drop_decomp h
  rw [hdecomp] at hx
  rcases List.mem_append.mp hx with h1 | h2
  · exact absurd (List.mem_append.mpr (Or.inl h1)) hx'
  · rcases List.mem_cons.mp h2 with rfl | h3
    · rfl
    · exact absurd (List.mem_append.mpr (Or.inr h3)) hx'

theorem sum_map_decomp {l : List α} {i : Nat} (h : i < l.length) (f : α → Nat) :
    (l.map f).sum
      = ((l.take i).map f).sum + (f (l.get ⟨i, h⟩) + ((l.drop (i + 1)).map f).sum) := by
  conv_lhs => rw [drop_decomp h]
  rw [List.map_append, List.sum_append, List.map_cons, List.sum_cons]

theorem sum_map_eraseIdx {l : List α} {i : Nat} (h : i < l.length) (f : α → Nat) :
    ((l.eraseIdx i).map f).sum + f (l.get ⟨i, h⟩) = (l.map f).sum := by
  rw [List.eraseIdx_eq_take_drop_succ, List.map_append, List.sum_append,
    sum_map_decomp h f]
  omega

theorem sum_map_swapRemoveIdx {l : List α} {i : Nat} (h : i < l.length) (f : α → Nat) :
    ((swapRemoveIdx l i).map f).sum + f (l.get ⟨i, h⟩) = (l.map f).sum := by
  rw [((swapRemoveIdx_perm l i h).map f).sum_eq]
  exact sum_map_eraseIdx h f

theorem sum_map_set {l : List α} {i : Nat} (h : i < l.length) (f : α → Nat) (a : α) :
    ((l.set i a).map f).sum + f (l.get ⟨i, h⟩) = (l.map f).sum + f a := by
  rw [List.set_eq_take_cons_drop _ h, List.map_append, List.sum_append, List.map_cons,
    List.sum_cons, sum_map_decomp h f]
  omega

theorem sumLen_swapRemoveIdx {l : List ConnectionGroup} {i : Nat} (h : i < l.length) :
    sumLen (swapRemoveIdx l i) + (l.get ⟨i, h⟩).2.length = sumLen l :=
  sum_map_swapRemoveIdx h _

theorem sumLen_set {l : List ConnectionGroup} {i : Nat} (h : i < l.length)
    (g : ConnectionGroup) :
    sumLen (l.set i g) + (l.get ⟨i, h⟩).2.length = sumLen l + g.2.length :=
  sum_map_set h _ g

theorem sumLen_append (l1 l2 : List ConnectionGroup) :
    sumLen (l1 ++ l2) = sumLen l1 + sumLen l2 := by
  simp [sumLen, List.sum_append]

theorem get_le_sumLen {l : List ConnectionGroup} {i : Nat} (h : i < l.length) :
    (l.get ⟨i, h⟩).2.length ≤ sumLen l := by
  have := sum_map_eraseIdx h fun g => g.2.length
  unfold sumLen
  omega

/-! ### Invariant preservation of the table operations -/

theorem pruneOldestGo_spec (maxSize : Nat) :
    ∀ (fuel : Nat) (table : List ConnectionGroup) (total pruned : Nat),
      table.length ≤ fuel → total = pruned + sumLen table →
      total = (pruneOldestGo maxSize fuel table total pruned).2
          + sumLen (pruneOldestGo maxSize fuel table total pruned).1 ∧
        total - (pruneOldestGo maxSize fuel table total pruned).2 ≤ max maxSize 0 := by
  intro fuel
  induction fuel with
  | zero =>
    intro table total pruned hlen hinv
    have htab : table = [] := List.eq_nil_of_length_eq_zero (Nat.le_zero.mp hlen)
    subst htab
    simp only [pruneOldestGo]
    simp [sumLen] at hinv
    constructor
    · simpa [sumLen] using hinv
    · omega
  | succ fuel ih =>
    intro table total pruned hlen hinv
    simp only [pruneOldestGo]
    by_cases hcond : maxSize < total - pruned
    · rw [if_pos hcond]
      cases hmin : minIdxBy groupMin table with
      | none =>
        rw [minIdxBy_eq_none] at hmin
        subst hmin
        simp [sumLen] at hinv
        constructor
        · simpa [sumLen] using hinv
        · omega
      | some p =>
        obtain ⟨i, m⟩ := p
        obtain ⟨hi, _, _⟩ := minIdxBy_spec hmin
        have hget : table.get? i = some (table.get ⟨i, hi⟩) := List.get?_eq_get hi
        have hglen : ((table.get? i).map fun g => g.2.length).getD 0
            = (table.get ⟨i, hi⟩).2.length := by rw [hget]; rfl
        have hsum := sumLen_swapRemoveIdx hi
        have hlen' : (swapRemoveIdx table i).length ≤ fuel := by
          rw [length_swapRemoveIdx hi]; omega
        have hinv' : total = (pruned + ((table.get? i).map fun g => g.2.length).getD 0)
            + sumLen (swapRemoveIdx table i) := by
          rw [hglen]; omega
        exact ih (swapRemoveIdx table i) total
          (pruned + ((table.get? i).map fun g => g.2.length).getD 0) hlen' hinv'
    · rw [if_neg hcond]
      exact ⟨hinv, by omega⟩

theorem pruneOldestGo_subset (maxSize : Nat) :
    ∀ (fuel : Nat) (table : List ConnectionGroup) (total pruned : Nat)
      (g : ConnectionGroup),
      g ∈ (pruneOldestGo maxSize fuel table total pruned).1 → g ∈ table := by
  intro fuel
  induction fuel with
  | zero =>
    intro table total pruned g hg
    simpa [pruneOldestGo] using hg
  | succ fuel ih =>
    intro table total pruned g hg
    simp only [pruneOldestGo] at hg
    by_cases hcond : maxSize < total - pruned
    · rw [if_pos hcond] at hg
      cases hmin : minIdxBy groupMin table with
      | none => rw [hmin] at hg; exact hg
      | some p =>
        obtain ⟨i, m⟩ := p
        rw [hmin] at hg
        exact mem_of_mem_swapRemoveIdx (ih _ _ _ g hg)
    · rw [if_neg hcond] at hg
      exact hg

theorem pruneOldestGo_order (maxSize : Nat) :
    ∀ (fuel : Nat) (table : List ConnectionGroup) (total pruned : Nat)
      (g : ConnectionGroup), g ∈ table →
      g ∉ (pruneOldestGo maxSize fuel table total pruned).1 →
      ∀ g2 ∈ (pruneOldestGo maxSize fuel table total pruned).1,
        optLE (groupMin g) (groupMin g2) = true := by
  intro fuel
  induction fuel with
  | zero =>
    intro table total pruned g hg hng
    simp only [pruneOldestGo] at hng
    exact absurd hg hng
  | succ fuel ih =>
    intro table total pruned g hg hng g2 hg2
    simp only [pruneOldestGo] at hng hg2
    by_cases hcond : maxSize < total - pruned
    · rw [if_pos hcond] at hng hg2
      cases hmin : minIdxBy groupMin table with
      | none =>
        rw [hmin] at hng
        exact absurd hg hng
      | some p =>
        obtain ⟨i, m⟩ := p
        rw [hmin] at hng hg2
        obtain ⟨hi, hfi, hall⟩ := minIdxBy_spec hmin
        by_cases hgmem : g ∈ swapRemoveIdx table i
        · exact ih _ _ _ g hgmem hng g2 hg2
        · have hgi : g = table.get ⟨i, hi⟩ := eq_get_of_not_mem_swapRemoveIdx hi hg hgmem
          have hg2tab : g2 ∈ table :=
            mem_of_mem_swapRemoveIdx (pruneOldestGo_subset maxSize _ _ _ _ g2 hg2)
          rw [hgi, hfi]
          exact hall g2 hg2tab
    · rw [if_neg hcond] at hng hg2
      exact absurd hg hng

theorem prune_oldest_sizeEq {t : ConnectionTable} {maxSize : Nat} (h : sizeEq t) :
    sizeEq (prune_oldest t maxSize).1 := by
  have hspec := pruneOldestGo_spec maxSize t.table.length t.table t.total_size 0
    (Nat.le_refl _) (by simpa [sizeEq] using h)
  simp only [prune_oldest, sizeEq]
  omega

theorem prune_oldest_bound {t : ConnectionTable} {maxSize : Nat} (h : sizeEq t) :
    (prune_oldest t maxSize).1.total_size ≤ max maxSize 0 := by
  have hspec := pruneOldestGo_spec maxSize t.table.length t.table t.total_size 0
    (Nat.le_refl _) (by simpa [sizeEq] using h)
  simp only [prune_oldest]
  omega

theorem prune_oldest_subset {t : ConnectionTable} {maxSize : Nat} {g : ConnectionGroup}
    (hg : g ∈ (prune_oldest t maxSize).1.table) : g ∈ t.table :=
  pruneOldestGo_subset maxSize t.table.length t.table t.total_size 0 g hg

theorem prune_oldest_keyInv {t : ConnectionTable} {maxSize : Nat} (h : keyInv t) :
    keyInv (prune_oldest t maxSize).1 :=
  fun g hg => h g (prune_oldest_subset hg)

theorem prune_oldest_order {t : ConnectionTable} {maxSize : Nat} {g : ConnectionGroup}
    (hg : g ∈ t.table) (hng : g ∉ (prune_oldest t maxSize).1.table) :
    ∀ g2 ∈ (prune_oldest t maxSize).1.table, optLE (groupMin g) (groupMin g2) = true :=
  pruneOldestGo_order maxSize t.table.length t.table t.total_size 0 g hg hng

theorem prune_random_cases (t : ConnectionTable) (rng : Nat → Nat)
    (sample_size threshold_stake : Nat) :
    prune_random t rng sample_size threshold_stake = (t, 0) ∨
      ∃ (i : Nat) (h : i < t.table.length),
        optLT (groupFirstStake (t.table.get ⟨i, h⟩)) (some threshold_stake) = true ∧
        prune_random t rng sample_size threshold_stake
          = ({ table := swapRemoveIdx t.table i,
               total_size := t.total_size - (t.table.get ⟨i, h⟩).2.length },
             (t.table.get ⟨i, h⟩).2.length) := by
  by_cases hn : t.table.length = 0
  · left
    simp [prune_random, hn]
  · cases hmin : minPairBy ((List.range sample_size).map fun i =>
        (rng i % t.table.length,
          groupFirstStake ((t.table.get? (rng i % t.table.length)).getD
            (ConnectionTableKey.IP 0, [])))) with
    | none =>
      left
      simp only [prune_random, if_neg hn, hmin]
    | some p =>
      obtain ⟨idx, stk⟩ := p
      have hmem := minPairBy_mem hmin
      obtain ⟨j, _, hpair⟩ := List.mem_map.mp hmem
      have hidx : idx = rng j % t.table.length := by
        have := congrArg Prod.fst hpair
        simpa using this.symm
      have hlt : idx < t.table.length := by
        rw [hidx]
        exact Nat.mod_lt _ (Nat.pos_of_ne_zero hn)
      have hget : t.table.get? idx = some (t.table.get ⟨idx, hlt⟩) := List.get?_eq_get hlt
      have hstk : stk = groupFirstStake (t.table.get ⟨idx, hlt⟩) := by
        have hsnd := congrArg Prod.snd hpair
        simp only at hsnd
        rw [← hidx] at hsnd
        rw [← hsnd, hget]
        rfl
      by_cases hthr : optLT stk (some threshold_stake) = true
      · right
        refine ⟨idx, hlt, by rw [← hstk]; exact hthr, ?_⟩
        simp only [prune_random, if_neg hn, hmin, if_pos hthr, hget,
          Option.map_some', Option.getD_some]
      · left
        simp only [prune_random, if_neg hn, hmin, if_neg hthr]

theorem prune_random_sizeEq {t : ConnectionTable} {rng : Nat → Nat}
    {sample_size threshold_stake : Nat} (h : sizeEq t) :
    sizeEq (prune_random t rng sample_size threshold_stake).1 := by
  rcases prune_random_cases t rng sample_size threshold_stake with hc | ⟨i, hi, _, hc⟩
  · rw [hc]; exact h
  · rw [hc]
    have hsum := sumLen_swapRemoveIdx hi
    have hle := get_le_sumLen hi
    simp only [sizeEq] at h ⊢
    omega

theorem prune_random_keyInv {t : ConnectionTable} {rng : Nat → Nat}
    {sample_size threshold_stake : Nat} (h : keyInv t) :
    keyInv (prune_random t rng sample_size threshold_stake).1 := by
  rcases prune_random_cases t rng sample_size threshold_stake with hc | ⟨i, hi, _, hc⟩
  · rw [hc]; exact h
  · rw [hc]
    exact fun g hg => h g (mem_of_mem_swapRemoveIdx hg)

theorem try_add_sizeEq {t : ConnectionTable} {key : ConnectionTableKey}
    {port : Nat} {conn : Option Nat} {pt : ConnectionPeerType} {ts maxPer : Nat}
    (h : sizeEq t) :
    sizeEq (try_add_connection t key port conn pt ts maxPer).1 := by
  simp only [try_add_connection]
  cases hfind : findKeyIdx key t.table with
  | none =>
    by_cases hcap : 0 + 1 ≤ maxPer
    · rw [if_pos hcap]
      simp only [sizeEq] at h ⊢
      rw [sumLen_append]
      simp [sumLen, h]
    · rw [if_neg hcap]
      simp only [sizeEq] at h ⊢
      rw [sumLen_append]
      simp [sumLen, h]
  | some i =>
    obtain ⟨hi, _⟩ := findKeyIdx_spec hfind
    have hget : t.table.get? i = some (t.table.get ⟨i, hi⟩) := List.get?_eq_get hi
    simp only [hget, Option.map_some', Option.getD_some]
    by_cases hcap : (t.table.get ⟨i, hi⟩).2.length + 1 ≤ maxPer
    · rw [if_pos hcap]
      have hset := sumLen_set hi (key, (t.table.get ⟨i, hi⟩).2 ++
        [{ peer_type := pt, last_update := ts, port := port, connStableId := conn }])
      simp only [sizeEq] at h ⊢
      simp only [List.length_append, List.length_cons, List.length_nil] at hset
      omega
    · rw [if_neg hcap]
      exact h

theorem try_add_keyInv {t : ConnectionTable} {key : ConnectionTableKey}
    {port : Nat} {conn : Option Nat} {pt : ConnectionPeerType} {ts maxPer : Nat}
    (hcap1 : 1 ≤ maxPer) (h : keyInv t) :
    keyInv (try_add_connection t key port conn pt ts maxPer).1 := by
  simp only [try_add_connection]
  cases hfind : findKeyIdx key t.table with
  | none =>
    rw [if_pos (by omega : 0 + 1 ≤ maxPer)]
    intro g hg
    rcases List.mem_append.mp hg with hg' | hg'
    · exact h g hg'
    · rcases List.mem_singleton.mp hg' with rfl
      simp
  | some i =>
    obtain ⟨hi, _⟩ := findKeyIdx_spec hfind
    have hget : t.table.get? i = some (t.table.get ⟨i, hi⟩) := List.get?_eq_get hi
    simp only [hget, Option.map_some', Option.getD_some]
    by_cases hcap : (t.table.get ⟨i, hi⟩).2.length + 1 ≤ maxPer
    · rw [if_pos hcap]
      intro g hg
      rcases List.mem_or_eq_of_mem_set hg with hg' | rfl
      · exact h g hg'
      · simp
    · rw [if_neg hcap]
      exact h

theorem remove_sizeEq {t : ConnectionTable} {key : ConnectionTableKey}
    {port stable_id : Nat} (h : sizeEq t) :
    sizeEq (remove_connection t key port stable_id).1 := by
  simp only [remove_connection]
  cases hfind : findKeyIdx key t.table with
  | none => exact h
  | some i =>
    obtain ⟨hi, _⟩ := findKeyIdx_spec hfind
    have hget : t.table.get? i = some (t.table.get ⟨i, hi⟩) := List.get?_eq_get hi
    simp only [hget, Option.map_some', Option.getD_some]
    have hfle : ((t.table.get ⟨i, hi⟩).2.filter fun e =>
        retainEntry e port stable_id).length ≤ (t.table.get ⟨i, hi⟩).2.length :=
      List.length_filter_le _ _
    have hle := get_le_sumLen hi
    by_cases hemp : ((t.table.get ⟨i, hi⟩).2.filter fun e =>
        retainEntry e port stable_id).isEmpty
    · rw [if_pos hemp]
      have hsum := sumLen_swapRemoveIdx hi
      have hlen0 : ((t.table.get ⟨i, hi⟩).2.filter fun e =>
          retainEntry e port stable_id).length = 0 := by
        rwa [List.isEmpty_iff_length_eq_zero] at hemp
      simp only [sizeEq] at h ⊢
      omega
    · rw [if_neg hemp]
      have hset : sumLen (t.table.set i (key, (t.table.get ⟨i, hi⟩).2.filter fun e =>
            retainEntry e port stable_id)) + (t.table.get ⟨i, hi⟩).2.length
          = sumLen t.table + ((t.table.get ⟨i, hi⟩).2.filter fun e =>
            retainEntry e port stable_id).length := by
        simpa using sumLen_set hi (key, (t.table.get ⟨i, hi⟩).2.filter fun e =>
          retainEntry e port stable_id)
      simp only [sizeEq] at h ⊢
      omega

theorem remove_keyInv {t : ConnectionTable} {key : ConnectionTableKey}
    {port stable_id : Nat} (h : keyInv t) :
    keyInv (remove_connection t key port stable_id).1 := by
  simp only [remove_connection]
  cases hfind : findKeyIdx key t.table with
  | none => exact h
  | some i =>
    obtain ⟨hi, _⟩ := findKeyIdx_spec hfind
    have hget : t.table.get? i = some (t.table.get ⟨i, hi⟩) := List.get?_eq_get hi
    simp only [hget, Option.map_some', Option.getD_some]
    by_cases hemp : ((t.table.get ⟨i, hi⟩).2.filter fun e =>
        retainEntry e port stable_id).isEmpty
    · rw [if_pos hemp]
      exact fun g hg => h g (mem_of_mem_swapRemoveIdx hg)
    · rw [if_neg hemp]
      intro g hg
      rcases List.mem_or_eq_of_mem_set hg with hg' | rfl
      · exact h g hg'
      · intro hnil
        have hempty : ((t.table.get ⟨i, hi⟩).2.filter fun e =>
            retainEntry e port stable_id).isEmpty = true := by
          simpa using congrArg List.isEmpty hnil
        exact hemp hempty

theorem applyOp_inv {t : ConnectionTable} {op : TableOp} (hs : sizeEq t) (hk : keyInv t)
    (hop : addCapPos op) : sizeEq (applyOp t op) ∧ keyInv (applyOp t op) := by
  cases op with
  | add key port conn pt ts maxPer =>
    exact ⟨try_add_sizeEq hs, try_add_keyInv hop hk⟩
  | remove key port sid =>
    exact ⟨remove_sizeEq hs, remove_keyInv hk⟩
  | pruneOldest maxSize =>
    exact ⟨prune_oldest_sizeEq hs, prune_oldest_keyInv hk⟩
  | pruneRandom rng k thr =>
    exact ⟨prune_random_sizeEq hs, prune_random_keyInv hk⟩

theorem foldl_inv :
    ∀ (ops : List TableOp) (t : ConnectionTable), sizeEq t → keyInv t →
      (∀ op ∈ ops, addCapPos op) →
      sizeEq (ops.foldl applyOp t) ∧ keyInv (ops.foldl applyOp t) := by
  intro ops
  induction ops with
  | nil => intro t hs hk _; exact ⟨hs, hk⟩
  | cons op ops ih =>
    intro t hs hk hall
    have hop := hall op (List.mem_cons_self op ops)
    obtain ⟨hs', hk'⟩ := applyOp_inv hs hk hop
    exact ih (applyOp t op) hs' hk' fun o ho => hall o (List.mem_cons_of_mem _ ho)

/-! ### Stream reassembly lemmas -/

theorem accumulateChunks_ok :
    ∀ (cs : List Chunk) (a : PacketAccumulator),
      a.meta.size + (cs.map List.length).sum ≤ PACKET_DATA_SIZE →
      accumulateChunks cs a
        = ({ meta := { size := a.meta.size + (cs.map List.length).sum },
             chunks := a.chunks ++ cs }, true) := by
  intro cs
  induction cs with
  | nil => intro a _; simp [accumulateChunks]
  | cons c cs ih =>
    intro a hle
    simp only [List.map_cons, List.sum_cons] at hle
    have hcond : ¬ PACKET_DATA_SIZE < a.meta.size + c.length := by omega
    simp only [accumulateChunks, if_neg hcond]
    rw [ih { meta := { size := a.meta.size + c.length }, chunks := a.chunks ++ [c] }
      (by show a.meta.size + c.length + (cs.map List.length).sum ≤ PACKET_DATA_SIZE
          omega)]
    simp only [List.map_cons, List.sum_cons, List.append_assoc, List.singleton_append,
      Nat.add_assoc]

theorem handle_chunks_single_ok (c : Chunk) (a : PacketAccumulator) (cap : Nat)
    (q : List PacketAccumulator) (h : a.meta.size + c.length ≤ PACKET_DATA_SIZE) :
    handle_chunks [c] a cap q
      = { state := .ok .Receiving,
          accum := { meta := { size := a.meta.size + c.length },
                     chunks := a.chunks ++ [c] },
          queue := q, droppedFull := 0 } := by
  have hacc := accumulateChunks_ok [c] a (by simpa using h)
  simp only [handle_chunks, hacc]
  simp

theorem handle_chunks_single_overflow (c : Chunk) (a : PacketAccumulator) (cap : Nat)
    (q : List PacketAccumulator) (h : PACKET_DATA_SIZE < a.meta.size + c.length) :
    handle_chunks [c] a cap q
      = { state := .error (),
          accum := { meta := { size := a.meta.size + c.length }, chunks := a.chunks },
          queue := q, droppedFull := 0 } := by
  simp only [handle_chunks, accumulateChunks, if_pos h]

theorem handle_chunks_finish_ok (a : PacketAccumulator) (cap : Nat)
    (q : List PacketAccumulator) (hne : a.chunks ≠ []) (hroom : q.length < cap) :
    handle_chunks [] a cap q
      = { state := .ok .Finished, accum := a, queue := q ++ [a], droppedFull := 0 } := by
  simp only [handle_chunks, accumulateChunks, trySend, if_pos hroom]
  simp [List.isEmpty_iff, hne]

theorem runStreamFrom_ok (cap : Nat) :
    ∀ (cs : List Chunk) (a : PacketAccumulator) (q : List PacketAccumulator),
      a.meta.size = (a.chunks.map List.length).sum →
      (a.chunks = [] → cs ≠ []) →
      a.meta.size + (cs.map List.length).sum ≤ PACKET_DATA_SIZE →
      q.length < cap →
      runStreamFrom cs a cap q =
        { state := .ok .Finished,
          accum := { meta := { size := a.meta.size + (cs.map List.length).sum },
                     chunks := a.chunks ++ cs },
          queue := q ++ [{ meta := { size := a.meta.size + (cs.map List.length).sum },
                           chunks := a.chunks ++ cs }],
          droppedFull := 0 } := by
  intro cs
  induction cs with
  | nil =>
    intro a q hsz hne _hle hroom
    have hane : a.chunks ≠ [] := by
      intro hnil
      exact (hne hnil) rfl
    simp only [runStreamFrom]
    rw [handle_chunks_finish_ok a cap q hane hroom]
    simp
  | cons c cs ih =>
    intro a q hsz hne hle hroom
    simp only [List.map_cons, List.sum_cons] at hle
    have hstep := handle_chunks_single_ok c a cap q (by omega)
    simp only [runStreamFrom, hstep]
    have hrec := ih { meta := { size := a.meta.size + c.length }, chunks := a.chunks ++ [c] }
      q
      (by show a.meta.size + c.length = (((a.chunks ++ [c]).map List.length)).sum
          simp [hsz])
      (by simp)
      (by show a.meta.size + c.length + (cs.map List.length).sum ≤ PACKET_DATA_SIZE
          omega)
      hroom
    rw [hrec]
    simp only [List.map_cons, List.sum_cons, List.append_assoc, List.singleton_append,
      Nat.add_assoc]

theorem accumToPacket_bytes (a : PacketAccumulator) :
    (accumToPacket a).bytes = a.chunks.flatten := by
  unfold accumToPacket
  match a.chunks with
  | [] => simp
  | [c] => simp
  | c1 :: c2 :: cs => simp

theorem accumToPacket_meta (a : PacketAccumulator) :
    (accumToPacket a).meta = a.meta := by
  unfold accumToPacket
  match a.chunks with
  | [] => simp
  | [c] => simp
  | c1 :: c2 :: cs => simp

/-! ### Lookup lemmas for remove_connection -/

theorem lookupEntries_of_findKeyIdx {k : ConnectionTableKey} :
    ∀ {l : List ConnectionGroup} {i : Nat} (h : findKeyIdx k l = some i)
      (hi : i < l.length), lookupEntries k l = (l.get ⟨i, hi⟩).2 := by
  intro l
  induction l with
  | nil => intro i h hi; simp [findKeyIdx] at h
  | cons g gs ih =>
    intro i h hi
    simp only [findKeyIdx] at h
    by_cases hk : g.1 = k
    · rw [if_pos hk] at h
      obtain rfl : i = 0 := by simpa using h.symm
      simp [lookupEntries, hk]
    · rw [if_neg hk] at h
      cases hgs : findKeyIdx k gs with
      | none => rw [hgs] at h; simp at h
      | some j =>
        rw [hgs] at h
        obtain rfl : i = j + 1 := by simpa using h.symm
        simp only [lookupEntries, if_neg hk]
        exact ih hgs (by simpa using Nat.lt_of_succ_lt_succ hi)

theorem lookupEntries_eq_nil_of_all_ne {k : ConnectionTableKey} :
    ∀ {l : List ConnectionGroup}, (∀ g ∈ l, g.1 ≠ k) → lookupEntries k l = [] := by
  intro l
  induction l with
  | nil => intro _; rfl
  | cons g gs ih =>
    intro hall
    simp only [lookupEntries, if_neg (hall g (List.mem_cons_self _ _))]
    exact ih fun g' hg' => hall g' (List.mem_cons_of_mem _ hg')

theorem fst_inj_of_nodup {l : List ConnectionGroup}
    (hnd : (l.map Prod.fst).Nodup) {x y : ConnectionGroup}
    (hx : x ∈ l) (hy : y ∈ l) (hxy : x.1 = y.1) : x = y := by
  induction l with
  | nil => simp at hx
  | cons g gs ih =>
    simp only [List.map_cons, List.nodup_cons] at hnd
    rcases List.mem_cons.mp hx with rfl | hx'
    · rcases List.mem_cons.mp hy with rfl | hy'
      · rfl
      · exact absurd (hxy ▸ List.mem_map_of_mem Prod.fst hy') hnd.1
    · rcases List.mem_cons.mp hy with rfl | hy'
      · exact absurd (hxy ▸ List.mem_map_of_mem Prod.fst hx') hnd.1
      · exact ih hnd.2 hx' hy'

theorem lookupEntries_eq_of_mem_nodup {l : List ConnectionGroup}
    (hnd : (l.map Prod.fst).Nodup) {g : ConnectionGroup} {k : ConnectionTableKey}
    (hg : g ∈ l) (hk : g.1 = k) : lookupEntries k l = g.2 := by
  induction l with
  | nil => simp at hg
  | cons h hs ih =>
    simp only [List.map_cons, List.nodup_cons] at hnd
    rcases List.mem_cons.mp hg with rfl | hg'
    · simp [lookupEntries, hk]
    · have hne : h.1 ≠ k := by
        intro he
        have : h.1 = g.1 := he.trans hk.symm
        exact hnd.1 (this ▸ List.mem_map_of_mem Prod.fst hg')
      simp only [lookupEntries, if_neg hne]
      exact ih hnd.2 hg'

theorem mem_eraseIdx_of_mem_ne {l : List α} {i : Nat} (hi : i < l.length) {x : α}
    (hx : x ∈ l) (hne : x ≠ l.get ⟨i, hi⟩) : x ∈ l.eraseIdx i := by
  rw [List.eraseIdx_eq_take_drop_succ]
  have := drop_decomp hi
  rw [this] at hx
  rcases List.mem_append.mp hx with h1 | h2
  · exact List.mem_append.mpr (Or.inl h1)
  · rcases List.mem_cons.mp h2 with rfl | h3
    · exact absurd rfl hne
    · exact List.mem_append.mpr (Or.inr h3)

theorem mem_swapRemoveIdx_of_mem_ne {l : List α} {i : Nat} (hi : i < l.length) {x : α}
    (hx : x ∈ l) (hne : x ≠ l.get ⟨i, hi⟩) : x ∈ swapRemoveIdx l i :=
  (swapRemoveIdx_perm l i hi).mem_iff.mpr (mem_eraseIdx_of_mem_ne hi hx hne)

theorem nodup_keys_swapRemoveIdx {l : List ConnectionGroup} {i : Nat} (hi : i < l.length)
    (hnd : (l.map Prod.fst).Nodup) : ((swapRemoveIdx l i).map Prod.fst).Nodup := by
  have hperm : ((swapRemoveIdx l i).map Prod.fst).Perm ((l.eraseIdx i).map Prod.fst) :=
    (swapRemoveIdx_perm l i hi).map _
  refine hperm.nodup_iff.mpr ?_
  have hsub : (l.eraseIdx i).map Prod.fst |>.Sublist (l.map Prod.fst) :=
    (List.eraseIdx_sublist l i).map _
  exact hsub.nodup hnd

theorem keys_ne_of_mem_swapRemoveIdx {l : List ConnectionGroup} {i : Nat}
    (hi : i < l.length) (hnd : (l.map Prod.fst).Nodup) {g : ConnectionGroup}
    (hg : g ∈ swapRemoveIdx l i) : g.1 ≠ (l.get ⟨i, hi⟩).1 := by
  intro heq
  have hgl : g ∈ l := mem_of_mem_swapRemoveIdx hg
  have hgeq : g = l.get ⟨i, hi⟩ := fst_inj_of_nodup hnd hgl (List.get_mem l i hi) heq
  have hmem : l.get ⟨i, hi⟩ ∈ l.eraseIdx i := by
    rw [← hgeq]
    exact (swapRemoveIdx_perm l i hi).mem_iff.mp hg
  rw [List.eraseIdx_eq_take_drop_succ] at hmem
  have hi' : i < (l.map Prod.fst).length := by simpa using hi
  have hmap := drop_decomp hi'
  have hgm : (l.map Prod.fst).get ⟨i, hi'⟩ = (l.get ⟨i, hi⟩).1 := by simp
  rw [hmap, hgm] at hnd
  rcases List.nodup_append.mp hnd with ⟨_, hcons, hdisj⟩
  rcases List.mem_append.mp hmem with h1 | h2
  · have h1' : (l.get ⟨i, hi⟩).1 ∈ (l.take i).map Prod.fst :=
      List.mem_map_of_mem Prod.fst h1
    rw [List.map_take] at h1'
    exact hdisj h1' (List.mem_cons_self _ _)
  · have h2' : (l.get ⟨i, hi⟩).1 ∈ (l.drop (i + 1)).map Prod.fst :=
      List.mem_map_of_mem Prod.fst h2
    rw [List.map_drop] at h2'
    exact (List.nodup_cons.mp hcons).1 h2'

theorem lookupEntries_set_self {k : ConnectionTableKey} {v : List ConnectionEntry} :
    ∀ {l : List ConnectionGroup} {i : Nat}, findKeyIdx k l = some i →
      lookupEntries k (l.set i (k, v)) = v := by
  intro l
  induction l with
  | nil => intro i h; simp [findKeyIdx] at h
  | cons g gs ih =>
    intro i h
    simp only [findKeyIdx] at h
    by_cases hk : g.1 = k
    · rw [if_pos hk] at h
      obtain rfl : i = 0 := by simpa using h.symm
      simp [lookupEntries]
    · rw [if_neg hk] at h
      cases hgs : findKeyIdx k gs with
      | none => rw [hgs] at h; simp at h
      | some j =>
        rw [hgs] at h
        obtain rfl : i = j + 1 := by simpa using h.symm
        simp only [List.set_cons_succ, lookupEntries, if_neg hk]
        exact ih hgs

theorem lookupEntries_set_ne {key k' : ConnectionTableKey} {v : List ConnectionEntry}
    (hne : k' ≠ key) :
    ∀ {l : List ConnectionGroup} {i : Nat} (hi : i < l.length),
      (l.get ⟨i, hi⟩).1 = key →
      lookupEntries k' (l.set i (key, v)) = lookupEntries k' l := by
  intro l
  induction l with
  | nil => intro i hi; simp at hi
  | cons g gs ih =>
    intro i hi hkey
    cases i with
    | zero =>
      simp only [List.get] at hkey
      simp only [List.set_cons_zero, lookupEntries]
      rw [if_neg (by simpa using hne.symm), if_neg (by rw [hkey]; exact fun h => hne h.symm)]
    | succ j =>
      simp only [List.get] at hkey
      simp only [List.set_cons_succ, lookupEntries]
      by_cases hg : g.1 = k'
      · rw [if_pos hg, if_pos hg]
      · rw [if_neg hg, if_neg hg]
        exact ih (by simpa using Nat.lt_of_succ_lt_succ hi) hkey

/-- Full characterisation of `remove_connection` over a table with
pairwise-distinct keys (the invariant `IndexMap` maintains): under the
searched key exactly the non-retained entries disappear, every other key
is untouched, and the returned count is the number of removed entries. -/
theorem remove_connection_spec (t : ConnectionTable) (key : ConnectionTableKey)
    (port stable_id : Nat) (hnd : (t.table.map Prod.fst).Nodup) :
    (remove_connection t key port stable_id).2
        = (entriesUnder t key).length
          - ((entriesUnder t key).filter fun e => retainEntry e port stable_id).length ∧
      entriesUnder (remove_connection t key port stable_id).1 key
        = (entriesUnder t key).filter (fun e => retainEntry e port stable_id) ∧
      ∀ k', k' ≠ key →
        entriesUnder (remove_connection t key port stable_id).1 k'
          = entriesUnder t k' := by
  cases hfind : findKeyIdx key t.table with
  | none =>
    have hnil : entriesUnder t key = [] :=
      lookupEntries_eq_nil_of_all_ne (findKeyIdx_eq_none.mp hfind)
    have hr : remove_connection t key port stable_id = (t, 0) := by
      simp only [remove_connection, hfind]
    rw [hr]
    exact ⟨by simp [hnil], by simp [hnil], fun _ _ => rfl⟩
  | some i =>
    obtain ⟨hi, hkey⟩ := findKeyIdx_spec hfind
    have hget : t.table.get? i = some (t.table.get ⟨i, hi⟩) := List.get?_eq_get hi
    have hconns : entriesUnder t key = (t.table.get ⟨i, hi⟩).2 :=
      lookupEntries_of_findKeyIdx hfind hi
    simp only [remove_connection, hfind, hget, Option.map_some', Option.getD_some]
    by_cases hemp : ((t.table.get ⟨i, hi⟩).2.filter fun e =>
        retainEntry e port stable_id).isEmpty
    · rw [if_pos hemp]
      have hkept : ((t.table.get ⟨i, hi⟩).2.filter fun e =>
          retainEntry e port stable_id) = [] := List.isEmpty_iff.mp hemp
      refine ⟨by rw [hconns], ?_, ?_⟩
      · have hall : ∀ g ∈ swapRemoveIdx t.table i, g.1 ≠ key := by
          intro g hg
          have := keys_ne_of_mem_swapRemoveIdx hi hnd hg
          rwa [hkey] at this
        show lookupEntries key (swapRemoveIdx t.table i) = _
        rw [lookupEntries_eq_nil_of_all_ne hall, hconns, hkept]
      · intro k' hk'
        show lookupEntries k' (swapRemoveIdx t.table i) = lookupEntries k' t.table
        by_cases hex : ∃ g ∈ t.table, g.1 = k'
        · obtain ⟨g, hgmem, hg1⟩ := hex
          have hgne : g ≠ t.table.get ⟨i, hi⟩ := by
            intro hc
            rw [hc] at hg1
            exact hk' (hg1.symm.trans hkey)
          have hgsw : g ∈ swapRemoveIdx t.table i :=
            mem_swapRemoveIdx_of_mem_ne hi hgmem hgne
          rw [lookupEntries_eq_of_mem_nodup (nodup_keys_swapRemoveIdx hi hnd) hgsw hg1,
            lookupEntries_eq_of_mem_nodup hnd hgmem hg1]
        · push_neg at hex
          rw [lookupEntries_eq_nil_of_all_ne hex,
            lookupEntries_eq_nil_of_all_ne fun g hg =>
              hex g (mem_of_mem_swapRemoveIdx hg)]
    · rw [if_neg hemp]
      refine ⟨by rw [hconns], ?_, ?_⟩
      · show lookupEntries key (t.table.set i (key, _)) = _
        rw [lookupEntries_set_self hfind, hconns]
      · intro k' hk'
        show lookupEntries k' (t.table.set i (key, _)) = lookupEntries k' t.table
        exact lookupEntries_set_ne hk' hi hkey

/-! ### Rational-arithmetic lemmas for the stake interpolation functions -/

theorem rustRound_intCast (n : ℤ) : rustRound ((n : ℚ)) = n := by
  unfold rustRound
  by_cases h : (0 : ℚ) ≤ (n : ℚ)
  · rw [if_pos h]
    rw [Int.floor_int_add]
    norm_num
  · rw [if_neg h]
    rw [show -((n : ℤ) : ℚ) = (((-n : ℤ)) : ℚ) by push_cast; ring]
    rw [Int.floor_int_add]
    norm_num

theorem rustRound_mono {q r : ℚ} (h : q ≤ r) : rustRound q ≤ rustRound r := by
  unfold rustRound
  by_cases hq : 0 ≤ q
  · rw [if_pos hq, if_pos (le_trans hq h)]
    exact Int.floor_le_floor (by linarith)
  · rw [if_neg hq]
    push_neg at hq
    by_cases hr : 0 ≤ r
    · rw [if_pos hr]
      have h1 : (0 : ℤ) ≤ ⌊r + 1 / 2⌋ := Int.floor_nonneg.mpr (by linarith)
      have h2 : (0 : ℤ) ≤ ⌊-q + 1 / 2⌋ := Int.floor_nonneg.mpr (by linarith)
      omega
    · rw [if_neg hr]
      have h3 : ⌊-r + 1 / 2⌋ ≤ ⌊-q + 1 / 2⌋ := Int.floor_le_floor (by linarith)
      omega

theorem rustCastToNat_intCast (z : ℤ) : rustCastToNat ((z : ℚ)) = min z.toNat U64_MAX := by
  unfold rustCastToNat
  rw [Int.floor_intCast]

theorem rustRound_le_natCast {q : ℚ} {n : ℕ} (h : q ≤ (n : ℚ)) : rustRound q ≤ (n : ℤ) := by
  have h2 : q ≤ ((n : ℤ) : ℚ) := by rw [Int.cast_natCast]; exact h
  have h3 := rustRound_mono h2
  rwa [rustRound_intCast] at h3

theorem natCast_le_rustRound {q : ℚ} {n : ℕ} (h : (n : ℚ) ≤ q) : (n : ℤ) ≤ rustRound q := by
  have h2 : ((n : ℤ) : ℚ) ≤ q := by rw [Int.cast_natCast]; exact h
  have h3 := rustRound_mono h2
  rwa [rustRound_intCast] at h3

theorem rustCastToNat_int_le {z : ℤ} {n : ℕ} (h : z ≤ (n : ℤ)) :
    rustCastToNat ((z : ℚ)) ≤ n := by
  rw [rustCastToNat_intCast]
  omega

theorem le_rustCastToNat_int {z : ℤ} {n : ℕ} (h : (n : ℤ) ≤ z) (h2 : n ≤ U64_MAX) :
    n ≤ rustCastToNat ((z : ℚ)) := by
  rw [rustCastToNat_intCast]
  omega

theorem rustCastToNat_mono {q r : ℚ} (h : q ≤ r) : rustCastToNat q ≤ rustCastToNat r := by
  unfold rustCastToNat
  have h1 : ⌊q⌋ ≤ ⌊r⌋ := Int.floor_le_floor h
  omega

theorem rustCastToNat_le {q : ℚ} {n : ℕ} (h : q ≤ (n : ℚ)) : rustCastToNat q ≤ n := by
  unfold rustCastToNat
  have h1 : ⌊q⌋ ≤ (n : ℤ) := by
    calc ⌊q⌋ ≤ ⌊((n : ℕ) : ℚ)⌋ := Int.floor_le_floor h
    _ = (n : ℤ) := Int.floor_natCast n
  omega

theorem le_rustCastToNat {q : ℚ} {n : ℕ} (h1 : (n : ℚ) ≤ q) (h2 : n ≤ U64_MAX) :
    n ≤ rustCastToNat q := by
  unfold rustCastToNat
  have h3 : (n : ℤ) ≤ ⌊q⌋ := Int.le_floor.mpr (by exact_mod_cast h1)
  omega

theorem rustClamp_mono {lo hi x y : Nat} (hlh : lo ≤ hi) (h : x ≤ y) :
    rustClamp x lo hi ≤ rustClamp y lo hi := by
  unfold rustClamp
  split_ifs <;> omega

theorem rustClamp_bounds {lo hi : Nat} (hlh : lo ≤ hi) (x : Nat) :
    lo ≤ rustClamp x lo hi ∧ rustClamp x lo hi ≤ hi := by
  unfold rustClamp
  split_ifs <;> omega

theorem uni_streams_mono (minStaked maxStaked totalStaked maxUnstaked : Nat)
    {s s' t : Nat} (hss : s ≤ s') (hst : s' ≤ t) (hmm : minStaked ≤ maxStaked) :
    compute_max_allowed_uni_streams minStaked maxStaked totalStaked maxUnstaked
        (.Staked s) t
      ≤ compute_max_allowed_uni_streams minStaked maxStaked totalStaked maxUnstaked
        (.Staked s') t := by
  simp only [compute_max_allowed_uni_streams]
  by_cases ht : t = 0
  · have hs0 : s = 0 := by omega
    have hs0' : s' = 0 := by omega
    subst hs0
    subst hs0'
    simp [ht]
  · have hc1 : ¬(t = 0 ∨ t < s) := by push_neg; exact ⟨ht, by omega⟩
    have hc2 : ¬(t = 0 ∨ t < s') := by push_neg; exact ⟨ht, by omega⟩
    rw [if_neg hc1, if_neg hc2]
    apply rustClamp_mono hmm
    have htpos : (0 : ℚ) < (t : ℚ) := by
      exact_mod_cast Nat.pos_of_ne_zero ht
    have hdiv : (s : ℚ) / (t : ℚ) ≤ (s' : ℚ) / (t : ℚ) :=
      (div_le_div_right htpos).mpr (by exact_mod_cast hss)
    have hmul := mul_le_mul_of_nonneg_right hdiv
      (show (0 : ℚ) ≤ ((totalStaked - minStaked : ℕ) : ℚ) from Nat.cast_nonneg _)
    have := rustCastToNat_mono hmul
    omega

theorem uni_streams_bounds (minStaked maxStaked totalStaked maxUnstaked : Nat)
    (hmm : minStaked ≤ maxStaked) (u t : Nat) :
    minStaked ≤ compute_max_allowed_uni_streams minStaked maxStaked totalStaked
        maxUnstaked (.Staked u) t
      ∧ compute_max_allowed_uni_streams minStaked maxStaked totalStaked
        maxUnstaked (.Staked u) t ≤ maxStaked := by
  simp only [compute_max_allowed_uni_streams]
  by_cases hc : t = 0 ∨ t < u
  · rw [if_pos hc]
    exact ⟨Nat.le_refl _, hmm⟩
  · rw [if_neg hc]
    have h1 := (rustClamp_bounds hmm (rustCastToNat (((u : ℚ) / (t : ℚ))
      * ((totalStaked - minStaked : ℕ) : ℚ)) + minStaked)).1
    have h2 := (rustClamp_bounds hmm (rustCastToNat (((u : ℚ) / (t : ℚ))
      * ((totalStaked - minStaked : ℕ) : ℚ)) + minStaked)).2
    exact ⟨h1, h2⟩

theorem ratio_line_upper {min_ratio max_ratio max_stake min_stake s : Nat}
    (hrr : min_ratio ≤ max_ratio) (hms : min_stake < max_stake) (hs : s ≤ max_stake) :
    ((max_ratio - min_ratio : Nat) : ℚ) / ((max_stake - min_stake : Nat) : ℚ) * (s : ℚ)
        + ((max_ratio : ℚ)
          - (max_stake : ℚ) * (((max_ratio - min_ratio : Nat) : ℚ)
            / ((max_stake - min_stake : Nat) : ℚ)))
      ≤ (max_ratio : ℚ) := by
  set a : ℚ := ((max_ratio - min_ratio : Nat) : ℚ) / ((max_stake - min_stake : Nat) : ℚ)
    with ha
  have hapos : 0 ≤ a := by
    rw [ha]
    positivity
  have hmul : a * (s : ℚ) ≤ a * (max_stake : ℚ) :=
    mul_le_mul_of_nonneg_left (by exact_mod_cast hs) hapos
  nlinarith [hmul]

theorem ratio_line_lower {min_ratio max_ratio max_stake min_stake s : Nat}
    (hrr : min_ratio ≤ max_ratio) (hms : min_stake < max_stake) (hs : min_stake ≤ s) :
    (min_ratio : ℚ)
      ≤ ((max_ratio - min_ratio : Nat) : ℚ) / ((max_stake - min_stake : Nat) : ℚ)
          * (s : ℚ)
        + ((max_ratio : ℚ)
          - (max_stake : ℚ) * (((max_ratio - min_ratio : Nat) : ℚ)
            / ((max_stake - min_stake : Nat) : ℚ))) := by
  set a : ℚ := ((max_ratio - min_ratio : Nat) : ℚ) / ((max_stake - min_stake : Nat) : ℚ)
    with ha
  have hapos : 0 ≤ a := by
    rw [ha]
    positivity
  have hDpos : (0 : ℚ) < ((max_stake - min_stake : Nat) : ℚ) := by
    have : 1 ≤ max_stake - min_stake := by omega
    exact_mod_cast Nat.lt_of_lt_of_le Nat.zero_lt_one this
  have hkey : a * ((max_stake - min_stake : Nat) : ℚ) = ((max_ratio - min_ratio : Nat) : ℚ) := by
    rw [ha]
    exact div_mul_cancel₀ _ hDpos.ne'
  have hcast1 : ((max_stake - min_stake : Nat) : ℚ) = (max_stake : ℚ) - (min_stake : ℚ) := by
    push_cast [Nat.cast_sub (Nat.le_of_lt hms)]
    ring
  have hcast2 : ((max_ratio - min_ratio : Nat) : ℚ) = (max_ratio : ℚ) - (min_ratio : ℚ) := by
    push_cast [Nat.cast_sub hrr]
    ring
  have hmul : a * (min_stake : ℚ) ≤ a * (s : ℚ) :=
    mul_le_mul_of_nonneg_left (by exact_mod_cast hs) hapos
  rw [hcast1, hcast2] at hkey
  nlinarith [hmul, hkey]

theorem ratio_mono (min_ratio max_ratio max_stake min_stake : Nat)
    (hrr : min_ratio ≤ max_ratio) {r r' : Nat} (h : r ≤ r') :
    compute_receive_window_ratio_for_staked_node min_ratio max_ratio max_stake
        min_stake r
      ≤ compute_receive_window_ratio_for_staked_node min_ratio max_ratio max_stake
        min_stake r' := by
  simp only [compute_receive_window_ratio_for_staked_node]
  by_cases h1 : max_stake < r
  · rw [if_pos h1, if_pos (by omega : max_stake < r')]
  · rw [if_neg h1]
    by_cases h2 : max_stake < r'
    · rw [if_pos h2]
      by_cases h3 : min_stake < max_stake
      · rw [if_pos h3]
        exact rustCastToNat_int_le
          (rustRound_le_natCast (ratio_line_upper hrr h3 (by omega : r ≤ max_stake)))
      · rw [if_neg h3]
    · rw [if_neg h2]
      by_cases h3 : min_stake < max_stake
      · rw [if_pos h3, if_pos h3]
        apply rustCastToNat_mono
        have hmono := rustRound_mono (q := ((max_ratio - min_ratio : Nat) : ℚ)
              / ((max_stake - min_stake : Nat) : ℚ) * (r : ℚ)
            + ((max_ratio : ℚ)
              - (max_stake : ℚ) * (((max_ratio - min_ratio : Nat) : ℚ)
                / ((max_stake - min_stake : Nat) : ℚ))))
          (r := ((max_ratio - min_ratio : Nat) : ℚ)
              / ((max_stake - min_stake : Nat) : ℚ) * (r' : ℚ)
            + ((max_ratio : ℚ)
              - (max_stake : ℚ) * (((max_ratio - min_ratio : Nat) : ℚ)
                / ((max_stake - min_stake : Nat) : ℚ))))
          (by
            have hapos : (0 : ℚ) ≤ ((max_ratio - min_ratio : Nat) : ℚ)
                / ((max_stake - min_stake : Nat) : ℚ) := by positivity
            have := mul_le_mul_of_nonneg_left
              (show ((r : ℚ)) ≤ ((r' : ℚ)) by exact_mod_cast h) hapos
            linarith)
        exact_mod_cast hmono
      · rw [if_neg h3, if_neg h3]

theorem ratio_bounds (min_ratio max_ratio max_stake min_stake : Nat)
    (hrr : min_ratio ≤ max_ratio) (hmaxr : max_ratio ≤ U64_MAX) {v : Nat}
    (hv : min_stake ≤ v) :
    min_ratio ≤ compute_receive_window_ratio_for_staked_node min_ratio max_ratio
        max_stake min_stake v
      ∧ compute_receive_window_ratio_for_staked_node min_ratio max_ratio max_stake
        min_stake v ≤ max_ratio := by
  simp only [compute_receive_window_ratio_for_staked_node]
  by_cases h1 : max_stake < v
  · rw [if_pos h1]
    exact ⟨hrr, Nat.le_refl _⟩
  · rw [if_neg h1]
    by_cases h3 : min_stake < max_stake
    · rw [if_pos h3]
      have hup := ratio_line_upper hrr h3 (by omega : v ≤ max_stake)
      have hlo := ratio_line_lower hrr h3 hv
      exact ⟨le_rustCastToNat_int (natCast_le_rustRound hlo) (le_trans hrr hmaxr),
        rustCastToNat_int_le (rustRound_le_natCast hup)⟩
    · rw [if_neg h3]
      exact ⟨hrr, Nat.le_refl _⟩

theorem length_filter_add_length_filter_not (p : α → Bool) :
    ∀ l : List α, (l.filter p).length + (l.filter fun x => ! p x).length = l.length := by
  intro l
  induction l with
  | nil => rfl
  | cons x xs ih =>
    by_cases hx : p x = true
    · simp [List.filter_cons, hx, ih]
      omega
    · simp only [List.filter_cons]
      rw [if_neg (by simpa using hx), if_pos (by simpa using hx)]
      simp only [List.length_cons]
      omega

theorem retainEntry_false_iff (e : ConnectionEntry) (port stable_id : Nat) :
    retainEntry e port stable_id = false
      ↔ e.port = port ∧ (e.connStableId = none ∨ e.connStableId = some stable_id) := by
  cases h : e.connStableId with
  | none => simp [retainEntry, h]
  | some c => simp [retainEntry, h]

set_option maxRecDepth 100000

/-! ### The claims -/

/-- C1 (amended): for every sequence of `try_add_connection`,
`remove_connection`, `prune_oldest` and `prune_random` operations starting
from the empty table, in which every `try_add_connection` call uses a
per-peer cap of at least 1, the running `total_size` equals the sum of the
per-key connection-list lengths and every present key has a non-empty
list.  (The cap proviso is forced by the counterexample: a failed
insertion with `max_connections_per_peer = 0` leaves the fresh key behind
with an empty list.) -/
theorem c1_capacity_invariant (ops : List TableOp)
    (hcap : ∀ op ∈ ops, addCapPos op) :
    sizeEq (runOps ops) ∧ keyInv (runOps ops) :=
  foldl_inv ops ConnectionTable.new rfl
    (fun g hg => absurd hg (List.not_mem_nil g)) hcap

/-- Witness for C1: the invariant holds after a concrete mixed sequence of
operations. -/
theorem c1_capacity_invariant_witness :
    (∀ op ∈ sampleOps, addCapPos op) ∧ sizeEq (runOps sampleOps) := by
  refine ⟨by decide, ?_⟩
  exact (c1_capacity_invariant sampleOps (by decide)).1

/-- Counterexample for C1 as stated: a `try_add_connection` with
`max_connections_per_peer = 0` on an absent key is refused, but
`entry(key).or_default()` has already inserted the key, which stays in the
table with an empty connection list - so "a key is present iff its list is
non-empty" fails for this operation sequence. -/
theorem c1_counterexample :
    keyPresent (runOps emptyKeyOps) (.IP 0) = true ∧
      entriesUnder (runOps emptyKeyOps) (.IP 0) = [] ∧
      (runOps emptyKeyOps).total_size = 0 := by
  decide

/-- C2 (amended): on a table whose `total_size` matches its contents,
`prune_oldest maxSize` leaves at most `max maxSize 0` entries, and it
evicts whole key groups in order of their minimum last-activity timestamp:
every evicted group has a group-minimum timestamp at most that of every
retained group.  (The per-entry ordering of the original claim is false:
an evicted group may contain an entry newer than a retained entry, as the
counterexample shows.) -/
theorem c2_prune_oldest_correct (t : ConnectionTable) (maxSize : Nat)
    (h : sizeEq t) :
    (prune_oldest t maxSize).1.total_size ≤ max maxSize 0 ∧
      ∀ g ∈ t.table, g ∉ (prune_oldest t maxSize).1.table →
        ∀ g2 ∈ (prune_oldest t maxSize).1.table,
          optLE (groupMin g) (groupMin g2) = true :=
  ⟨prune_oldest_bound h, fun g hg hng => prune_oldest_order hg hng⟩

/-- Witness for C2 on a concrete table. -/
theorem c2_prune_oldest_correct_witness :
    sizeEq tOldest ∧ (prune_oldest tOldest 2).1.total_size ≤ max 2 0 := by
  refine ⟨by decide, ?_⟩
  exact (c2_prune_oldest_correct tOldest 2 (by decide)).1

/-- Counterexample for C2 as stated: pruning `tOldest` to 2 entries evicts
the whole group of key `IP 1` - including its entry last active at 100 -
while the entry of key `IP 2` last active at 50 is retained, so the
evicted entries are not those with the numerically smallest last-activity
timestamps first. -/
theorem c2_counterexample :
    (∃ e ∈ entriesUnder tOldest (.IP 1), e.last_update = 100) ∧
      entriesUnder (prune_oldest tOldest 2).1 (.IP 1) = [] ∧
      (∃ e ∈ entriesUnder (prune_oldest tOldest 2).1 (.IP 2), e.last_update = 50) ∧
      (prune_oldest tOldest 2).1.total_size = 1 ∧ (50 : Nat) < 100 := by
  decide

/-- C3 (amended): when a stream completes (zero-length chunk read) with no
chunks ever received, no data is forwarded, but the stream is not
discarded silently: `handle_chunks` reports an error, and
`handle_connection` reacts to any `handle_chunks` error by closing the
whole connection with the invalid-stream close code and reason, exactly as
for an oversized stream.  (The original claim that the connection remains
open is refuted by the counterexample.) -/
theorem c3_empty_stream_closes_connection (a : PacketAccumulator) (cap : Nat)
    (q : List PacketAccumulator) (h : a.chunks = []) :
    (handle_chunks [] a cap q).state = .error () ∧
      (handle_chunks [] a cap q).queue = q ∧
      handleChunksResultAction (handle_chunks [] a cap q).state
        = .closeConnection CONNECTION_CLOSE_CODE_INVALID_STREAM
            CONNECTION_CLOSE_REASON_INVALID_STREAM := by
  have hr : handle_chunks [] a cap q
      = { state := .error (), accum := a, queue := q, droppedFull := 0 } := by
    simp [handle_chunks, accumulateChunks, List.isEmpty_iff, h]
  rw [hr]
  exact ⟨rfl, rfl, rfl⟩

/-- Witness for C3 on a fresh accumulator. -/
theorem c3_empty_stream_closes_connection_witness :
    (PacketAccumulator.new { size := 0 }).chunks = [] ∧
      (handle_chunks [] (PacketAccumulator.new { size := 0 }) 1024 []).state
        = .error () := by
  refine ⟨rfl, ?_⟩
  exact (c3_empty_stream_closes_connection (PacketAccumulator.new { size := 0 })
    1024 [] rfl).1

/-- Counterexample for C3 as stated: a completed stream with zero chunks
is not terminal for the stream only - the handler closes the whole
connection with close code 5 and reason "invalid_stream" instead of
leaving it open. -/
theorem c3_counterexample :
    (handle_chunks [] (PacketAccumulator.new { size := 0 }) 1024 []).state
        = .error () ∧
      handleChunksResultAction
          (handle_chunks [] (PacketAccumulator.new { size := 0 }) 1024 []).state
        = .closeConnection 5 "invalid_stream" ∧
      handleChunksResultAction
          (handle_chunks [] (PacketAccumulator.new { size := 0 }) 1024 []).state
        ≠ .finishStream := by
  refine ⟨rfl, rfl, by decide⟩

/-- C4 (amended): when the batcher's non-blocking send of a due batch
fails, the error counter is bumped; on a transiently full consumer queue
the whole batch is dropped (it was moved into the failed `try_send` and
the next iteration starts from a freshly allocated empty batch - the
packets are lost, the intentional shed-load policy), and the server keeps
running; only consumer disconnection requests shutdown.  (The original
claim that accumulated packets remain queued for the next attempt is
refuted by the counterexample.) -/
theorem c4_batch_send_failure (batch : List BytesPacket) :
    flushPacketBatch batch .full
        = { delivered := none, sendErrIncrement := 1, exitRequested := false,
            nextBatch := [] } ∧
      flushPacketBatch batch .disconnected
        = { delivered := none, sendErrIncrement := 1, exitRequested := true,
            nextBatch := [] } ∧
      flushPacketBatch batch .ok
        = { delivered := some batch, sendErrIncrement := 0, exitRequested := false,
            nextBatch := [] } :=
  ⟨rfl, rfl, rfl⟩

/-- Counterexample for C4 as stated: a one-packet batch hitting a full
queue is neither delivered nor carried into the next iteration - the next
batch is empty, so the accumulated packet is lost rather than "queued for
the next send attempt". -/
theorem c4_counterexample :
    (flushPacketBatch [{ bytes := [1], meta := { size := 1 } }] .full).delivered
        = none ∧
      (flushPacketBatch [{ bytes := [1], meta := { size := 1 } }] .full).nextBatch
        = [] ∧
      ([{ bytes := [1], meta := { size := 1 } }] : List BytesPacket) ≠ [] ∧
      (flushPacketBatch [{ bytes := [1], meta := { size := 1 } }] .full).exitRequested
        = false ∧
      (flushPacketBatch [{ bytes := [1], meta := { size := 1 } }]
        .full).sendErrIncrement = 1 := by
  decide

/-- C5 (amended): `prune_random` either evicts nothing, or evicts exactly
one whole key group whose first entry's stake (`None`, ordered below every
threshold, for an empty group) is strictly below the threshold; it never
selects a group whose first entry has stake at or above the threshold.
Entries of the evicted group other than the first can individually have
stake at or above the threshold, as the counterexample shows. -/
theorem c5_prune_random_threshold (t : ConnectionTable) (rng : Nat → Nat)
    (sample_size threshold_stake : Nat) :
    prune_random t rng sample_size threshold_stake = (t, 0) ∨
      ∃ (i : Nat) (h : i < t.table.length),
        optLT (groupFirstStake (t.table.get ⟨i, h⟩)) (some threshold_stake) = true ∧
        prune_random t rng sample_size threshold_stake
          = ({ table := swapRemoveIdx t.table i,
               total_size := t.total_size - (t.table.get ⟨i, h⟩).2.length },
             (t.table.get ⟨i, h⟩).2.length) :=
  prune_random_cases t rng sample_size threshold_stake

/-- Counterexample for C5 as stated: with threshold 5, sampling the single
key of `tRandomSample` (first-entry stake 1 < 5) evicts the whole group,
including its second entry of stake 10 >= 5 - so `prune_random` can evict
an entry whose stake is at or above the threshold. -/
theorem c5_counterexample :
    (prune_random tRandomSample (fun _ => 0) 2 5).2 = 2 ∧
      (∃ e ∈ entriesUnder tRandomSample (.Pubkey 7), e.stake = 10) ∧
      entriesUnder (prune_random tRandomSample (fun _ => 0) 2 5).1 (.Pubkey 7)
        = [] ∧
      ¬ (10 : Nat) < 5 := by
  decide

/-- C6 (confirmed): for any 1 to 4 chunks whose total length fits in
`PACKET_DATA_SIZE`, received on one stream with room in the hand-off
queue, the stream finishes, the accumulator carrying exactly those chunks
in arrival order is enqueued, and the batcher's packet has bytes equal to
the exact concatenation and recorded size equal to the sum of the chunk
lengths. -/
theorem c6_reassembly_correct (cs : List Chunk) (cap : Nat)
    (q : List PacketAccumulator) (h1 : cs ≠ []) (h2 : cs.length ≤ 4)
    (h3 : (cs.map List.length).sum ≤ PACKET_DATA_SIZE) (h4 : q.length < cap) :
    (runStream cs cap q).state = .ok .Finished ∧
      (runStream cs cap q).queue = q ++ [(runStream cs cap q).accum] ∧
      (runStream cs cap q).accum.chunks = cs ∧
      (runStream cs cap q).accum.meta.size = (cs.map List.length).sum ∧
      (accumToPacket (runStream cs cap q).accum).bytes = cs.flatten ∧
      (accumToPacket (runStream cs cap q).accum).meta.size
        = (cs.map List.length).sum := by
  unfold runStream PacketAccumulator.new
  have hr := runStreamFrom_ok cap cs { meta := { size := 0 }, chunks := [] } q
    rfl (fun _ => h1) (by simpa using h3) h4
  rw [hr]
  refine ⟨rfl, by simp, by simp, by simp, ?_, ?_⟩
  · rw [accumToPacket_bytes]
    simp
  · rw [accumToPacket_meta]
    simp

/-- Witness for C6: two chunks [1,2] and [3] reassemble into the packet
[1,2,3] of size 3. -/
theorem c6_reassembly_correct_witness :
    ([[1, 2], [3]] : List Chunk) ≠ [] ∧
      (accumToPacket (runStream [[1, 2], [3]] 2 []).accum).bytes = [1, 2, 3] := by
  refine ⟨by decide, ?_⟩
  have h := (c6_reassembly_correct [[1, 2], [3]] 2 [] (by decide) (by decide)
    (by decide) (by decide)).2.2.2.2.1
  simpa using h

/-- C7 (confirmed): two chunks whose combined size exceeds
`PACKET_DATA_SIZE` make `handle_chunks` fail, zero packets are forwarded
from that stream, and `handle_connection` closes the whole connection with
the invalid-stream close code 5 and reason "invalid_stream". -/
theorem c7_overflow_rejection (c1 c2 : Chunk) (cap : Nat)
    (q : List PacketAccumulator)
    (h : PACKET_DATA_SIZE < c1.length + c2.length) :
    (runStream [c1, c2] cap q).state = .error () ∧
      (runStream [c1, c2] cap q).queue = q ∧
      handleChunksResultAction (runStream [c1, c2] cap q).state
        = .closeConnection CONNECTION_CLOSE_CODE_INVALID_STREAM
            CONNECTION_CLOSE_REASON_INVALID_STREAM ∧
      CONNECTION_CLOSE_CODE_INVALID_STREAM = 5 := by
  unfold runStream PacketAccumulator.new
  by_cases h1 : PACKET_DATA_SIZE < c1.length
  · have hs := handle_chunks_single_overflow c1
      { meta := { size := 0 }, chunks := [] } cap q (by simpa using h1)
    simp only [runStreamFrom, hs]
    exact ⟨by simp, by simp, rfl, rfl⟩
  · push_neg at h1
    have hs1 := handle_chunks_single_ok c1 { meta := { size := 0 }, chunks := [] }
      cap q (by simpa using h1)
    simp only [runStreamFrom, hs1]
    have hs2 := handle_chunks_single_overflow c2
      { meta := { size := 0 + c1.length }, chunks := [] ++ [c1] } cap q
      (by show PACKET_DATA_SIZE < 0 + c1.length + c2.length
          omega)
    simp only [runStreamFrom, hs2]
    exact ⟨by simp, by simp, rfl, rfl⟩

/-- Witness for C7: a 1232-byte chunk followed by a 1-byte chunk exceeds
the 1232-byte packet bound and is rejected with the connection closed. -/
theorem c7_overflow_rejection_witness :
    PACKET_DATA_SIZE < (List.replicate 1232 7 : Chunk).length + [(7 : Nat)].length ∧
      (runStream [List.replicate 1232 7, [7]] 4 []).state = .error () := by
  refine ⟨by decide, ?_⟩
  exact (c7_overflow_rejection (List.replicate 1232 7) [7] 4 [] (by decide)).1

/-- C8 (amended): with the staked stream constants ordered
(`minStaked <= maxStaked`) and the window-ratio constants ordered and
representable (`min_ratio <= max_ratio <= U64_MAX`):
`compute_max_allowed_uni_streams` is non-decreasing in stake on stakes at
most `total_stake` and lies in `[minStaked, maxStaked]` for every stake
(for stake above `total_stake` it falls back to the staked minimum, which
is a decrease, as the counterexample shows);
`compute_receive_window_ratio_for_staked_node` is non-decreasing in stake
everywhere, and lies in `[min_ratio, max_ratio]` for stakes at or above
`min_stake` (below `min_stake` the ratio can fall below `min_ratio`, down
to 0, as the counterexample shows). -/
theorem c8_stake_monotonicity
    (minStaked maxStaked totalStaked maxUnstaked : Nat)
    (min_ratio max_ratio max_stake min_stake : Nat)
    (t s s' r r' u v : Nat)
    (h1 : minStaked ≤ maxStaked) (h2 : min_ratio ≤ max_ratio)
    (h3 : max_ratio ≤ U64_MAX) (h4 : s ≤ s') (h5 : s' ≤ t) (h6 : r ≤ r')
    (h7 : min_stake ≤ v) :
    compute_max_allowed_uni_streams minStaked maxStaked totalStaked maxUnstaked
        (.Staked s) t
      ≤ compute_max_allowed_uni_streams minStaked maxStaked totalStaked maxUnstaked
        (.Staked s') t ∧
    (minStaked ≤ compute_max_allowed_uni_streams minStaked maxStaked totalStaked
        maxUnstaked (.Staked u) t ∧
      compute_max_allowed_uni_streams minStaked maxStaked totalStaked maxUnstaked
        (.Staked u) t ≤ maxStaked) ∧
    compute_receive_window_ratio_for_staked_node min_ratio max_ratio max_stake
        min_stake r
      ≤ compute_receive_window_ratio_for_staked_node min_ratio max_ratio max_stake
        min_stake r' ∧
    (min_ratio ≤ compute_receive_window_ratio_for_staked_node min_ratio max_ratio
        max_stake min_stake v ∧
      compute_receive_window_ratio_for_staked_node min_ratio max_ratio max_stake
        min_stake v ≤ max_ratio) :=
  ⟨uni_streams_mono _ _ _ _ h4 h5 h1,
   uni_streams_bounds _ _ _ _ h1 u t,
   ratio_mono _ _ _ _ h2 h6,
   ratio_bounds _ _ _ _ h2 h3 h7⟩

/-- Witness for C8 at concrete constants and stakes. -/
theorem c8_stake_monotonicity_witness :
    (128 : Nat) ≤ 512 ∧
      compute_max_allowed_uni_streams 128 512 100000 128 (.Staked 20) 100
        ≤ compute_max_allowed_uni_streams 128 512 100000 128 (.Staked 50) 100 := by
  refine ⟨by decide, ?_⟩
  exact (c8_stake_monotonicity 128 512 100000 128 128 512 1000 10 100 20 50 5 2000
    7 10 (by decide) (by decide) (by decide) (by decide) (by decide) (by decide)
    (by decide)).1

/-- Counterexample for C8 as stated: with ratio constants 128..512 and
stake bounds `min_stake = 2`, `max_stake = 4`, the receive-window ratio at
stake 0 is 0, far below the documented minimum 128 (the linear map is
negative there and the `as u64` cast saturates at 0); and with
`total_stake = 10`, the stream bound drops from 512 at stake 10 to the
fallback 128 at stake 11, so the function is not non-decreasing across
`stake > total_stake`. -/
theorem c8_counterexample :
    compute_receive_window_ratio_for_staked_node 128 512 4 2 0 = 0 ∧
      (0 : Nat) < 128 ∧
      compute_max_allowed_uni_streams 128 512 100000 128 (.Staked 10) 10 = 512 ∧
      compute_max_allowed_uni_streams 128 512 100000 128 (.Staked 11) 10 = 128 ∧
      (10 : Nat) ≤ 11 := by
  refine ⟨?_, by norm_num, ?_, ?_, by norm_num⟩
  · norm_num [compute_receive_window_ratio_for_staked_node, rustCastToNat, rustRound,
      U64_MAX]
  · norm_num [compute_max_allowed_uni_streams, rustCastToNat, rustClamp, U64_MAX]
    omega
  · norm_num [compute_max_allowed_uni_streams]

/-- C9 (amended): admitting unstaked connections with distinct keys and
increasing timestamps against a ceiling of 100, the 101st admission
attempt finds the table at capacity (100 entries), prunes it down to 90
entries (90% of capacity) before inserting, and the 10 oldest entries -
timestamps 0 through 9 - are exactly the ones evicted: afterwards the
table holds 91 entries, the keys 0..9 are gone and keys 10..100 are
present.  (The original claim says 11 entries; only 10 are evicted, as the
counterexample shows.) -/
theorem c9_scenario :
    scenario100.total_size = 100 ∧
      (prune_unstaked_connection_table scenario100 100).1.total_size = 90 ∧
      scenario101.total_size = 91 ∧
      ((List.range 101).all fun k =>
        keyPresent scenario101 (.IP k) == decide (10 ≤ k)) = true := by
  decide

/-- Counterexample for C9 as stated: were the 11 oldest entries evicted,
the key with timestamp 10 would be gone after the 101st attempt; it is
still present, and the table holds 91 entries (100 - 10 evicted + 1
inserted). -/
theorem c9_counterexample :
    keyPresent scenario101 (.IP 10) = true ∧ scenario101.total_size = 91 := by
  decide

/-- C10 (confirmed): on a table with pairwise-distinct keys,
`remove_connection key port stable_id` removes exactly the entries under
`key` whose port matches and whose transport handle is absent or has the
matching stable id; entries with a different stable id (a different live
connection reusing key and port) are retained, every other key is
untouched, and the returned count is the number of removed entries. -/
theorem c10_remove_connection_exact (t : ConnectionTable)
    (key : ConnectionTableKey) (port stable_id : Nat)
    (hnd : (t.table.map Prod.fst).Nodup) :
    (∀ e : ConnectionEntry, retainEntry e port stable_id = false
        ↔ e.port = port ∧ (e.connStableId = none ∨ e.connStableId = some stable_id)) ∧
      (remove_connection t key port stable_id).2
        = ((entriesUnder t key).filter fun e => ! retainEntry e port stable_id).length ∧
      entriesUnder (remove_connection t key port stable_id).1 key
        = (entriesUnder t key).filter (fun e => retainEntry e port stable_id) ∧
      ∀ k', k' ≠ key →
        entriesUnder (remove_connection t key port stable_id).1 k'
          = entriesUnder t k' := by
  obtain ⟨hcount, hkey, hother⟩ := remove_connection_spec t key port stable_id hnd
  refine ⟨fun e => retainEntry_false_iff e port stable_id, ?_, hkey, hother⟩
  rw [hcount]
  have := length_filter_add_length_filter_not
    (fun e => retainEntry e port stable_id) (entriesUnder t key)
  omega

/-- Witness for C10: removing (port 80, stable id 11) from `tRemove`
removes exactly one of the three entries under the pubkey key; the entry
with the same port but stable id 22 survives. -/
theorem c10_remove_connection_exact_witness :
    (tRemove.table.map Prod.fst).Nodup ∧
      (remove_connection tRemove (.Pubkey 3) 80 11).2
        = ((entriesUnder tRemove (.Pubkey 3)).filter
            fun e => ! retainEntry e 80 11).length := by
  refine ⟨by decide, ?_⟩
  exact (c10_remove_connection_exact tRemove (.Pubkey 3) 80 11 (by decide)).2.1

end Quic
